import Mathlib

/-!
Shallow embedding of the release-watcher Release Health Analysis Engine
(current revision: `generateReport`, `getEmptyAndStaleStreams`,
`getPayloadTimestamp`, `getUpgradeGraph`, `checkUpgrades` — the final snapshot
in the sources).  Go maps are represented as association lists (the list order
models the unspecified map iteration order; theorems that need Go-map semantics
assume `NodupKeys`).  `time.Time` is modelled as `Int` seconds since Go's zero
instant 0001-01-01 00:00:00 (so Go's zero `time.Time` value is `0`);
`time.Duration` as `Int` seconds.  `time.Parse(layout, m[0]+" EST")` attaches a
fabricated zone with offset 0 (EST is not in the build's zone database), so no
zone offset is applied.  The float `Minutes()` comparisons of the Go code are
modelled as exact integer comparisons on seconds; duration saturation and
float rounding below one second are not modelled.  Panics are modelled by
`Option.none` where a panic is reachable.
-/

namespace ReleaseWatcher

/-- Decimal value of a digit character. -/
def digitVal (c : Char) : Nat := c.toNat - 48

/-- Value of a digit string, most significant first (`strconv.Atoi` on a
match that consists of digits only; overflow of Go's `int` is not modelled). -/
def digitsToNat (cs : List Char) : Nat := cs.foldl (fun n c => n * 10 + digitVal c) 0

/-- Modelled from the spec: the current `zReleaseRegex` of the repository lives
in a `main.go` revision that is not among the provided sources (the provided
`main.go` is an older snapshot whose capture groups do not match the current
call sites).  Spec §4.1/§3: a z-stream name matches the pattern
`4.<minor>.0-0.(ci|nightly)`, the minor version is captured as an integer.
This models `zReleaseRegex.FindStringSubmatch(name)` followed by
`strconv.Atoi(matches[1])`: `some minor` on a match, `none` otherwise. -/
def zReleaseParseL : List Char → Option Nat
  | c1 :: c2 :: rest =>
    if c1 = '4' ∧ c2 = '.' then
      let ds := rest.takeWhile Char.isDigit
      let tail := rest.drop ds.length
      if ds.isEmpty then none
      else if tail = ".0-0.ci".data ∨ tail = ".0-0.nightly".data then some (digitsToNat ds)
      else none
    else none
  | _ => none

def zReleaseParse (s : String) : Option Nat := zReleaseParseL s.data

/-- Modelled from the spec: the current `extractMinorRegex` of the repository is
in the same missing `main.go` revision.  Spec §4.1: "a pattern requiring only
the leading `4.<digits>`" used to extract the minor version of payload
identifiers and stream names.  `some minor` when the string starts with
`4.<digits>`, `none` otherwise. -/
def extractMinorL : List Char → Option Nat
  | c1 :: c2 :: rest =>
    if c1 = '4' ∧ c2 = '.' then
      let ds := rest.takeWhile Char.isDigit
      if ds.isEmpty then none else some (digitsToNat ds)
    else none
  | _ => none

def extractMinor (s : String) : Option Nat := extractMinorL s.data

/-- Gregorian leap year rule, as used by Go's `time` package. -/
def isLeapYear (y : Int) : Bool := (y % 4 == 0 && y % 100 != 0) || y % 400 == 0

/-- Days from 0001-01-01 to the first day of year `y` (proleptic Gregorian,
negative for year 0, matching Go's `time` calendar). -/
def daysBeforeYear (y : Int) : Int :=
  365 * (y - 1) + (y - 1).fdiv 4 - (y - 1).fdiv 100 + (y - 1).fdiv 400

/-- Month lengths of a (non-)leap year. -/
def monthLengths (leap : Bool) : List Nat :=
  [31, if leap then 29 else 28, 31, 30, 31, 30, 31, 31, 30, 31, 30, 31]

/-- Days in the given year strictly before month `m` (1-based). -/
def daysBeforeMonth (leap : Bool) (m : Nat) : Nat :=
  ((monthLengths leap).take (m - 1)).foldl (· + ·) 0

/-- Length of month `m` (1-based) of a (non-)leap year; 0 for out-of-range
months (such months are rejected before this is relevant). -/
def daysInMonth (leap : Bool) (m : Nat) : Nat := ((monthLengths leap).getD (m - 1) 0)

/-- Seconds since 0001-01-01 00:00:00 of the civil date-time
`y-mo-d h:mi:s` (the instant Go's `time.Date`/`time.Parse` denote, at the
fixed zero-offset zone the code uses). -/
def civilSeconds (y : Int) (mo d h mi s : Nat) : Int :=
  (daysBeforeYear y + (daysBeforeMonth (isLeapYear y) mo : Int) + (d : Int) - 1) * 86400
    + ((h * 3600 + mi * 60 + s : Nat) : Int)

/-- `getPayloadTimestamp` on the character list of the payload identifier:
`extractDateRegex = ([0-9]{4})-([0-9]{2})-([0-9]{2})-([0-9]{2})([0-9]{2})([0-9]{2})$`
matches exactly when the last 17 characters have this shape, and
`time.Parse("2006-01-02-150405 MST", m[0]+" EST")` accepts any 4-digit year but
range-checks month, day (against the month's length in that year), hour,
minute and second. -/
def getPayloadTimestampL (cs : List Char) : Option Int :=
  match cs.drop (cs.length - 17) with
  | [y1, y2, y3, y4, a1, o1, o2, a2, d1, d2, a3, h1, h2, i1, i2, s1, s2] =>
    if cs.length < 17 then none
    else if ([y1, y2, y3, y4, o1, o2, d1, d2, h1, h2, i1, i2, s1, s2].all Char.isDigit
        && a1 == '-' && a2 == '-' && a3 == '-') then
      let y : Int := (digitsToNat [y1, y2, y3, y4] : Int)
      let mo := digitsToNat [o1, o2]
      let d := digitsToNat [d1, d2]
      let h := digitsToNat [h1, h2]
      let mi := digitsToNat [i1, i2]
      let s := digitsToNat [s1, s2]
      if 1 ≤ mo ∧ mo ≤ 12 ∧ 1 ≤ d ∧ d ≤ daysInMonth (isLeapYear y) mo
          ∧ h ≤ 23 ∧ mi ≤ 59 ∧ s ≤ 59 then
        some (civilSeconds y mo d h mi s)
      else none
    else none
  | _ => none

/-- `getPayloadTimestamp(payload)`: the extracted build instant, or `none` for
the error return (pattern absent or `time.Parse` rejects the values). -/
def getPayloadTimestamp (payload : String) : Option Int := getPayloadTimestampL payload.data

/-- `fmt.Sprintf("%.1f", seconds/86400.0)`: days with one decimal, rounded to
nearest (ties rounded up; the binary-float tie behaviour of Go's formatter is
not modelled, no claim exercises a tie, and Go's `-0.0` for small negative
values is rendered here as `0.0`). -/
def formatDays (seconds : Int) : String :=
  let n10 := (20 * seconds + 86400).fdiv 172800
  (if n10 < 0 then "-" else "") ++ toString (n10.natAbs / 10) ++ "." ++ toString (n10.natAbs % 10)

/-- Keys of an association list modelling a Go map are pairwise distinct. -/
abbrev NodupKeys {β : Type} (l : List (String × β)) : Prop := (l.map Prod.fst).Nodup

/-- `report[k] = append(report[k], msg)` on a Go `map[string][]string`,
modelled on the association list: append to the existing entry, or add a new
entry (placed at the end; a Go map has no entry order). -/
def updAppend (m : List (String × List String)) (k : String) (msg : String) :
    List (String × List String) :=
  if (m.lookup k).isSome then
    m.map fun kv => if kv.1 = k then (kv.1, kv.2 ++ [msg]) else kv
  else m ++ [(k, [msg])]

/-! ### Stream classifier (`getEmptyAndStaleStreams`) -/

/-- The payload loop of `getEmptyAndStaleStreams`: state is
`(freshPayload, newest)`; payloads whose timestamp extraction fails are
skipped; `delta.Minutes() < threshold.Minutes()` marks freshness;
`ts.After(newest)` updates the newest instant (initially Go's zero value `0`). -/
def streamScan (now threshold : Int) : Bool × Int → List String → Bool × Int
  | st, [] => st
  | st, p :: rest =>
    match getPayloadTimestamp p with
    | none => streamScan now threshold st rest
    | some ts =>
      let fresh := if now - ts < threshold then true else st.1
      let newest := if ts > st.2 then ts else st.2
      streamScan now threshold (fresh, newest) rest

/-- `getEmptyAndStaleStreams(releases, threshold, oldestMinor, newestMinor)`
at instant `now`: the `(emptyStreams, staleStreams)` pair, each in iteration
order of the association list.  Streams whose name the z-release pattern
rejects, or whose minor is below `oldestMinor` or above `newestMinor`, are
skipped; an empty payload list goes to `emptyStreams`; otherwise the stream
goes to `staleStreams` with age `now - newest` exactly when the payload scan
found no fresh payload. -/
def getEmptyAndStaleStreams (releases : List (String × List String))
    (threshold oldestMinor newestMinor now : Int) :
    List String × List (String × Int) :=
  match releases with
  | [] => ([], [])
  | (stream, payloads) :: rest =>
    let es := getEmptyAndStaleStreams rest threshold oldestMinor newestMinor now
    match zReleaseParse stream with
    | none => es
    | some v =>
      if (v : Int) < oldestMinor then es
      else if (v : Int) > newestMinor then es
      else if payloads.isEmpty then (stream :: es.1, es.2)
      else
        let fn := streamScan now threshold (false, 0) payloads
        if fn.1 then es else (es.1, (stream, now - fn.2) :: es.2)

/-! ### Upgrade validator (`checkUpgrades`) -/

/-- A recorded upgrade source (`found` struct): source version and age of the
payload that exhibited the upgrade. -/
structure Found where
  version : String
  age : Int
deriving DecidableEq

/-- The inner loop of `checkUpgrades` over `graph[payload]`: sources whose
minor version cannot be extracted are skipped; a source with
`toVersion == fromVersion` overwrites `foundPatch`, one with
`toVersion == fromVersion+1` overwrites `foundMinor`; the loop breaks once
both are set. -/
def scanFroms (toV : Nat) (age : Int) :
    Option Found × Option Found → List String → Option Found × Option Found
  | st, [] => st
  | st, f :: rest =>
    match extractMinor f with
    | none => scanFroms toV age st rest
    | some fv =>
      let fp := if toV = fv then some ⟨f, age⟩ else st.1
      let fm := if toV = fv + 1 then some ⟨f, age⟩ else st.2
      if fp.isSome && fm.isSome then (fp, fm) else scanFroms toV age (fp, fm) rest

/-- The payload loop of `checkUpgrades`: payloads whose timestamp extraction
fails, whose age exceeds the staleness threshold, or whose minor version
cannot be extracted are skipped; otherwise the adjacency list `graph[payload]`
(`nil` when absent) is scanned.  Note the inner break does not stop this outer
loop. -/
def scanPayloads (graph : List (String × List String)) (now threshold : Int) :
    Option Found × Option Found → List String → Option Found × Option Found
  | st, [] => st
  | st, p :: rest =>
    match getPayloadTimestamp p with
    | none => scanPayloads graph now threshold st rest
    | some ts =>
      let age := now - ts
      if age > threshold then scanPayloads graph now threshold st rest
      else
        match extractMinor p with
        | none => scanPayloads graph now threshold st rest
        | some toV =>
          scanPayloads graph now threshold
            (scanFroms toV age st ((graph.lookup p).getD [])) rest

def noPatchMsg : String := "Does not have a recent valid patch level upgrade"

def noMinorMsg : String := "Does not have a recent valid minor level upgrade"

def healthyPatchMsg (f : Found) : String :=
  "Has a recent valid patch level upgrade from " ++ f.version ++ " "
    ++ formatDays f.age ++ " days ago"

def healthyMinorMsg (f : Found) : String :=
  "Has a recent valid minor level upgrade from " ++ f.version ++ " "
    ++ formatDays f.age ++ " days ago"

/-- The findings `checkUpgrades` appends for one release, from the final
`(foundPatch, foundMinor)` state: a negative finding when a category is
missing, a positive one when present and `includeHealthy` is set. -/
def findings (includeHealthy : Bool) (fp fm : Option Found) : List String :=
  (match fp with
    | none => [noPatchMsg]
    | some f => if includeHealthy then [healthyPatchMsg f] else []) ++
  (match fm with
    | none => [noMinorMsg]
    | some f => if includeHealthy then [healthyMinorMsg f] else [])

/-- `checkUpgrades(graph, releases, stalenessThreshold, oldestMinor,
newestMinor, includeHealthy)` at instant `now`: the per-release report map as
an association list in iteration order.  A release appears exactly when the
z-release pattern accepts its name, its minor is within the window, and at
least one finding is appended (Go's `report[release] = append(...)` only then
creates the key).  `checkEntry` is the body of the release loop for one
map entry: `none` when the release is filtered out or no finding is appended,
`some (release, findings)` otherwise. -/
def checkEntry (graph : List (String × List String))
    (stalenessThreshold oldestMinor newestMinor : Int) (includeHealthy : Bool)
    (now : Int) (kv : String × List String) : Option (String × List String) :=
  match zReleaseParse kv.1 with
  | none => none
  | some v =>
    if (v : Int) < oldestMinor then none
    else if (v : Int) > newestMinor then none
    else
      let st := scanPayloads graph now stalenessThreshold (none, none) kv.2
      let fs := findings includeHealthy st.1 st.2
      if fs.isEmpty then none else some (kv.1, fs)

def checkUpgrades (graph releases : List (String × List String))
    (stalenessThreshold oldestMinor newestMinor : Int) (includeHealthy : Bool)
    (now : Int) : List (String × List String) :=
  releases.filterMap
    (checkEntry graph stalenessThreshold oldestMinor newestMinor includeHealthy now)

/-! ### Upgrade graph builder (`getUpgradeGraph`) -/

/-- A node of the fetched graph document.  The `From` field is written by
`getUpgradeGraph` (`graph.Nodes[to].From = from`) but never read afterwards
(its only reader is commented out); only the bounds check of that write is
observable and is modelled below. -/
structure GraphNode where
  version : String
  payload : String
  fromIdx : Int
deriving DecidableEq

/-- The decoded graph document: node list and edge list of
`[from, to]` index pairs (Go `int`, so possibly negative). -/
structure Graph where
  nodes : List GraphNode
  edges : List (Int × Int)

/-- The edge loop of `getUpgradeGraph`.  Go indexes `graph.Nodes[to]` and
`graph.Nodes[from]` without a bounds check; an out-of-range index panics with
index-out-of-range, modelled as `none`. -/
def getUpgradeGraphAux (nodes : List GraphNode) :
    List (Int × Int) → List (String × List String) → Option (List (String × List String))
  | [], acc => some acc
  | (f, t) :: rest, acc =>
    if f < 0 ∨ t < 0 then none
    else
      match nodes.get? t.toNat, nodes.get? f.toNat with
      | some nt, some nf => getUpgradeGraphAux nodes rest (updAppend acc nt.version nf.version)
      | _, _ => none

/-- `getUpgradeGraph` after a successful fetch and decode: builds the
adjacency map target version ↦ source versions.  `some` is the normal return,
`none` models the index-out-of-range panic. -/
def getUpgradeGraph (g : Graph) : Option (List (String × List String)) :=
  getUpgradeGraphAux g.nodes g.edges []

/-- Stated from the claim, for comparison with `getUpgradeGraph`: each target
version mapped to the source versions of its incoming edges, in edge-list
order, duplicates kept. -/
def adjacencySpec (g : Graph) (v : String) : List String :=
  g.edges.filterMap fun e =>
    match g.nodes.get? e.2.toNat, g.nodes.get? e.1.toNat with
    | some nt, some nf => if nt.version = v then some nf.version else none
    | _, _ => none

/-- Stated from the claim (C5): the newest timestamp extractable from the
payload list, when any payload's extraction succeeds. -/
def newestTimestamp (payloads : List String) : Option Int :=
  (payloads.filterMap getPayloadTimestamp).max?

/-! ### Report assembler (`generateReport`, analysis part) -/

def msgNoAcceptedRecent : String :=
  "Has no accepted payloads, but the stream contains recently built payloads"

def msgNoAcceptedBuilt : String :=
  "Has no accepted payloads, but the stream contains built payloads"

def msgAcceptedStale (age limit : Int) : String :=
  "Most recently accepted payload was " ++ formatDays age
    ++ " days ago, latest built payload is < " ++ formatDays limit ++ " days old"

def msgNoBuilt : String := "Has no built payloads"

def msgVeryStale (age : Int) : String :=
  "Most recently built payload was " ++ formatDays age ++ " days ago"

/-- The findings map `report` of `generateReport` just before rendering:
`checkUpgrades` output, then the four merge loops over the classifier
results.  The loops run in program order; their iteration order over each
classifier result follows that list's order. -/
def reportFindings (accepted allR graph : List (String × List String))
    (acceptedLimit builtLimit upgradeLimit oldestMinor newestMinor : Int)
    (includeHealthy : Bool) (now : Int) : List (String × List String) :=
  let report0 := checkUpgrades graph allR upgradeLimit oldestMinor newestMinor includeHealthy now
  let ae := getEmptyAndStaleStreams accepted acceptedLimit oldestMinor newestMinor now
  let al := getEmptyAndStaleStreams allR acceptedLimit oldestMinor newestMinor now
  let r1 := ae.1.foldl (fun rep s =>
    if (al.2.lookup s).isSome then
      if al.1.contains s then rep else updAppend rep s msgNoAcceptedBuilt
    else updAppend rep s msgNoAcceptedRecent) report0
  let r2 := ae.2.foldl (fun rep sa =>
    if (al.2.lookup sa.1).isSome then rep
    else updAppend rep sa.1 (msgAcceptedStale sa.2 acceptedLimit)) r1
  let r3 := al.1.foldl (fun rep s => updAppend rep s msgNoBuilt) r2
  let avs := getEmptyAndStaleStreams allR builtLimit oldestMinor newestMinor now
  avs.2.foldl (fun rep sa => updAppend rep sa.1 (msgVeryStale sa.2)) r3

/-- The sort key of the report's stream sections:
`strconv.Atoi(extractMinorRegex.FindStringSubmatch(stream)[1])`.  On every
report key the match succeeds (report keys pass the z-release pattern, see
`zReleaseParse_extractMinor`); on other strings Go would panic on the `nil`
match, so the default `0` is unreachable in `generateReport`. -/
def minorKey (s : String) : Nat := (extractMinor s).getD 0

/-- The stream ordering of `generateReport`: `sort.Strings` (lexicographic
ascending) followed by `sort.Slice` with `iVersion > jVersion`, i.e. a sort
that is descending (non-strictly) in the extracted minor version.  Go's
`sort.Slice` is an unstable but deterministic sort; it is modelled by the
deterministic `List.insertionSort` (only sortedness and determinism are
relied upon, never the tie order).  The lexicographic string order is taken
on the character lists (the same ordering as Go's byte-wise `<` on these
ASCII names). -/
def reportOrder (streams : List String) : List String :=
  (streams.insertionSort fun a b => a.data ≤ b.data).insertionSort
    fun a b => minorKey b ≤ minorKey a

/-- One stream section of the output text: the release-stream URL line, one
`  - ` bullet per finding, and a blank line. -/
def renderStream (rep : List (String × List String)) (s : String) : String :=
  "https://amd64.ocp.releases.ci.openshift.org/#" ++ s ++ "\n"
    ++ ((rep.lookup s).getD []).foldl (fun acc m => acc ++ "  - " ++ m ++ "\n") ""
    ++ "\n"

/-- The rendering loop of `generateReport` plus the trailing window line. -/
def renderReport (rep : List (String × List String)) (streams : List String)
    (oldestMinor newestMinor : Int) : String :=
  streams.foldl (fun acc s => acc ++ renderStream rep s) ""
    ++ "\nIgnored releases older than 4." ++ toString oldestMinor
    ++ ".z and newer than 4." ++ toString newestMinor ++ ".z\n"

/-- `generateReport` after its three fetches succeeded: the full report text
produced from the fetched snapshots (`accepted`, `allR`, the upgrade `graph`)
and the configuration. -/
def generateReport (accepted allR graph : List (String × List String))
    (acceptedLimit builtLimit upgradeLimit oldestMinor newestMinor : Int)
    (includeHealthy : Bool) (now : Int) : String :=
  let rep := reportFindings accepted allR graph acceptedLimit builtLimit upgradeLimit
    oldestMinor newestMinor includeHealthy now
  renderReport rep (reportOrder (rep.map Prod.fst)) oldestMinor newestMinor

/-! ### Helper lemmas -/

/-- A name accepted by the z-release pattern is also accepted by the minor
extraction pattern, with the same minor version (both start with
`4.<digits>`). -/
theorem zReleaseParse_extractMinor {s : String} {v : Nat}
    (h : zReleaseParse s = some v) : extractMinor s = some v := by
  unfold zReleaseParse at h
  unfold extractMinor
  match hcs : s.data with
  | [] => rw [hcs] at h; simp [zReleaseParseL] at h
  | [c] => rw [hcs] at h; simp [zReleaseParseL] at h
  | c1 :: c2 :: rest =>
    rw [hcs] at h
    simp only [zReleaseParseL, extractMinorL] at h ⊢
    split_ifs at h ⊢
    simp_all

/-- The contribution of one map entry to the `emptyStreams` result of
`getEmptyAndStaleStreams` (proof-layer decomposition of the stream loop). -/
def emptyEntry (oldestMinor newestMinor : Int) (kv : String × List String) :
    Option String :=
  match zReleaseParse kv.1 with
  | none => none
  | some v =>
    if (v : Int) < oldestMinor then none
    else if (v : Int) > newestMinor then none
    else if kv.2.isEmpty then some kv.1 else none

/-- The contribution of one map entry to the `staleStreams` result of
`getEmptyAndStaleStreams` (proof-layer decomposition of the stream loop). -/
def staleEntry (threshold oldestMinor newestMinor now : Int)
    (kv : String × List String) : Option (String × Int) :=
  match zReleaseParse kv.1 with
  | none => none
  | some v =>
    if (v : Int) < oldestMinor then none
    else if (v : Int) > newestMinor then none
    else if kv.2.isEmpty then none
    else
      let fn := streamScan now threshold (false, 0) kv.2
      if fn.1 then none else some (kv.1, now - fn.2)

/-- The stream loop of `getEmptyAndStaleStreams` classifies every map entry
independently. -/
theorem getEmptyAndStaleStreams_eq (releases : List (String × List String))
    (thr old new now : Int) :
    getEmptyAndStaleStreams releases thr old new now =
      (releases.filterMap (emptyEntry old new),
       releases.filterMap (staleEntry thr old new now)) := by
  induction releases with
  | nil => rfl
  | cons kv rest ih =>
    obtain ⟨stream, payloads⟩ := kv
    simp only [getEmptyAndStaleStreams, ih, List.filterMap_cons, emptyEntry, staleEntry]
    cases hz : zReleaseParse stream
    · rfl
    · dsimp only
      split_ifs <;> rfl

/-- Lookup in the append-to-existing-entry branch of `updAppend`. -/
theorem lookup_mapAppend (m : List (String × List String)) (k x v : String) :
    (m.map fun kv => if kv.1 = k then (kv.1, kv.2 ++ [x]) else kv).lookup v
      = if v = k then (m.lookup k).map (· ++ [x]) else m.lookup v := by
  induction m with
  | nil => by_cases h : v = k <;> simp [h]
  | cons kv rest ih =>
    obtain ⟨a, b⟩ := kv
    by_cases hak : a = k
    · subst hak
      by_cases hv : v = a
      · subst hv
        simp [List.lookup_cons]
      · have hbeq : (v == a) = false := by simpa using hv
        simp [List.lookup_cons, hbeq, ih, hv]
    · by_cases hv : v = a
      · subst hv
        have hvk : (v = k) = False := by simp [hak]
        simp [List.lookup_cons, hak, hvk]
      · have hbeq : (v == a) = false := by simpa using hv
        have hbeq2 : (k == a) = false := by simpa using fun h => hak h.symm
        simp [List.lookup_cons, hbeq, hbeq2, hak, ih]

/-- Lookup after appending a fresh singleton entry. -/
theorem lookup_appendSingle (m : List (String × List String)) (k x v : String) :
    (m ++ [(k, [x])]).lookup v
      = (m.lookup v).or (if v = k then some [x] else none) := by
  rw [List.lookup_append]
  by_cases h : v = k
  · simp [List.lookup_cons, h]
  · simp [List.lookup_cons, h, show (v == k) = false by simpa using h]

/-- Characterization of `updAppend`: the entry for `k` gets `msg` appended
(an absent key starts from the empty list), every other key is unchanged. -/
theorem lookup_updAppend (m : List (String × List String)) (k x v : String) :
    (updAppend m k x).lookup v
      = if v = k then some ((m.lookup k).getD [] ++ [x]) else m.lookup v := by
  unfold updAppend
  by_cases hs : (m.lookup k).isSome
  · obtain ⟨w, hw⟩ := Option.isSome_iff_exists.mp hs
    simp [hs, lookup_mapAppend, hw]
  · have hnone : m.lookup k = none := Option.not_isSome_iff_eq_none.mp hs
    by_cases h : v = k
    · subst h
      simp [hs, lookup_appendSingle, hnone]
    · simp [hs, lookup_appendSingle, h]

/-- `List.lookup` on a cons cell, stated with a propositional `if`. -/
theorem lookup_cons' {β : Type} (p : String × β) (es : List (String × β)) (a : String) :
    (p :: es).lookup a = if a = p.1 then some p.2 else es.lookup a := by
  obtain ⟨k, b⟩ := p
  rw [List.lookup_cons]
  by_cases h : a = k
  · simp [h]
  · simp [h, show (a == k) = false by simpa using h]

/-- Splitting `NodupKeys` at a cons cell. -/
theorem nodupKeys_cons_decomp {β : Type} {hd : String × β} {tl : List (String × β)}
    (nd : NodupKeys (hd :: tl)) : hd.1 ∉ tl.map Prod.fst ∧ NodupKeys tl := by
  have h : (hd.1 :: tl.map Prod.fst).Nodup := nd
  exact List.nodup_cons.mp h

/-- A key is among an association list's keys exactly when lookup finds it. -/
theorem mem_keys_iff_lookup {β : Type} (m : List (String × β)) (k : String) :
    k ∈ m.map Prod.fst ↔ (m.lookup k).isSome := by
  rw [List.lookup_isSome_iff]
  simp only [List.mem_map]
  constructor
  · rintro ⟨p, hp, rfl⟩
    exact ⟨p, hp, by simp⟩
  · rintro ⟨p, hp, hbeq⟩
    have : k = p.1 := by simpa using hbeq
    exact ⟨p, hp, this.symm⟩

theorem lookup_eq_none_of_not_mem_keys {β : Type} {m : List (String × β)}
    {k : String} (h : k ∉ m.map Prod.fst) : m.lookup k = none := by
  by_contra hc
  exact h ((mem_keys_iff_lookup m k).mpr (Option.isSome_iff_ne_none.mpr hc))

/-- The keys of `updAppend`. -/
theorem keys_updAppend (m : List (String × List String)) (k x : String) :
    (updAppend m k x).map Prod.fst
      = if (m.lookup k).isSome then m.map Prod.fst else m.map Prod.fst ++ [k] := by
  unfold updAppend
  split
  · rw [List.map_map]
    congr 1
    funext kv
    by_cases h : kv.1 = k <;> simp [h]
  · simp

theorem nodupKeys_updAppend {m : List (String × List String)} {k x : String}
    (h : NodupKeys m) : NodupKeys (updAppend m k x) := by
  unfold NodupKeys at h ⊢
  rw [keys_updAppend]
  split
  · exact h
  · rename_i hns
    have hk : k ∉ m.map Prod.fst := by
      intro hmem
      exact hns ((mem_keys_iff_lookup m k).mp hmem)
    simp [List.nodup_append, h, hk]

/-- Lookup in a key-nodup association list is invariant under permutation
(the Go-map reading of the association list does not depend on entry order). -/
theorem lookup_perm {β : Type} {l l' : List (String × β)} (h : l.Perm l') :
    NodupKeys l → ∀ k, l.lookup k = l'.lookup k := by
  induction h with
  | nil => exact fun _ _ => rfl
  | cons x h ih =>
    intro nd k
    have nd' : NodupKeys _ := (nodupKeys_cons_decomp nd).2
    rw [lookup_cons', lookup_cons']
    by_cases hk : k = x.1
    · simp [hk]
    · simp only [hk, if_false]
      exact ih nd' k
  | swap x y l =>
    intro nd k
    have hyx : y.1 ≠ x.1 := by
      have := (nodupKeys_cons_decomp nd).1
      intro hc
      exact this (hc ▸ List.mem_map.mpr ⟨x, List.mem_cons_self x l, rfl⟩)
    rw [lookup_cons', lookup_cons', lookup_cons', lookup_cons']
    by_cases hx : k = x.1
    · by_cases hy : k = y.1
      · exact absurd (hy.symm.trans hx) hyx
      · rw [if_neg hy, if_pos hx, if_pos hx]
    · by_cases hy : k = y.1
      · rw [if_pos hy, if_neg hx, if_pos hy]
      · rw [if_neg hy, if_neg hx, if_neg hx, if_neg hy]
  | trans h₁ h₂ ih₁ ih₂ =>
    intro nd k
    have nd₂ : NodupKeys _ := ((h₁.map Prod.fst).nodup_iff).mp nd
    exact (ih₁ nd k).trans (ih₂ nd₂ k)

/-- Keys of a `filterMap` through a key-preserving function form a sublist of
the input keys. -/
theorem keys_filterMap_sublist {β γ : Type} (f : (String × β) → Option (String × γ))
    (hf : ∀ kv r, f kv = some r → r.1 = kv.1) :
    ∀ l : List (String × β), ((l.filterMap f).map Prod.fst).Sublist (l.map Prod.fst) := by
  intro l
  induction l with
  | nil => simp
  | cons kv rest ih =>
    rw [List.filterMap_cons]
    cases hfk : f kv with
    | none => exact ih.cons kv.1
    | some r =>
      rw [List.map_cons, List.map_cons, hf kv r hfk]
      exact ih.cons₂ kv.1

theorem nodupKeys_filterMap {β γ : Type} {f : (String × β) → Option (String × γ)}
    (hf : ∀ kv r, f kv = some r → r.1 = kv.1) {l : List (String × β)}
    (h : NodupKeys l) : NodupKeys (l.filterMap f) :=
  (keys_filterMap_sublist f hf l).nodup h

/-- Per-entry lookup through a key-preserving `filterMap` over a key-nodup
association list. -/
theorem lookup_filterMap {β γ : Type} {f : (String × β) → Option (String × γ)}
    (hf : ∀ kv r, f kv = some r → r.1 = kv.1) :
    ∀ {l : List (String × β)} {kv : String × β}, NodupKeys l → kv ∈ l →
      (l.filterMap f).lookup kv.1 = (f kv).map Prod.snd := by
  intro l
  induction l with
  | nil => intro kv _ h; simp at h
  | cons hd tl ih =>
    intro kv nd hmem
    have ndtl : NodupKeys tl := (nodupKeys_cons_decomp nd).2
    have hdnotin : hd.1 ∉ tl.map Prod.fst := (nodupKeys_cons_decomp nd).1
    rcases List.mem_cons.mp hmem with rfl | htl
    · rw [List.filterMap_cons]
      cases hfk : f kv with
      | none =>
        have hnin : kv.1 ∉ (tl.filterMap f).map Prod.fst := by
          intro hc
          exact hdnotin ((keys_filterMap_sublist f hf tl).subset hc)
        simp [lookup_eq_none_of_not_mem_keys hnin, hfk]
      | some r =>
        have hr1 : r.1 = kv.1 := hf kv r hfk
        rw [lookup_cons', if_pos hr1.symm]
        rfl
    · have hne : kv.1 ≠ hd.1 := by
        intro hc
        exact hdnotin (hc ▸ List.mem_map.mpr ⟨kv, htl, rfl⟩)
      rw [List.filterMap_cons]
      cases hfk : f hd with
      | none => exact ih ndtl htl
      | some r =>
        have hr1 : r.1 = hd.1 := hf hd r hfk
        rw [lookup_cons', if_neg (by rw [hr1]; exact hne)]
        exact ih ndtl htl

theorem getLast?_or {α : Type} (l : List α) (a : α) :
    (a :: l).getLast? = l.getLast?.or (some a) := by
  induction l generalizing a with
  | nil => rfl
  | cons b t ih =>
    rw [List.getLast?_cons_cons, ih b]
    cases t.getLast? <;> rfl

theorem streamScan_nil (now thr : Int) (st : Bool × Int) :
    streamScan now thr st [] = st := rfl

theorem streamScan_cons (now thr : Int) (st : Bool × Int) (p : String)
    (rest : List String) :
    streamScan now thr st (p :: rest)
      = match getPayloadTimestamp p with
        | none => streamScan now thr st rest
        | some ts =>
          streamScan now thr
            ((if now - ts < thr then true else st.1),
             (if ts > st.2 then ts else st.2)) rest := rfl

theorem scanPayloads_nil (graph : List (String × List String)) (now thr : Int)
    (st : Option Found × Option Found) :
    scanPayloads graph now thr st [] = st := rfl

theorem scanPayloads_cons (graph : List (String × List String)) (now thr : Int)
    (st : Option Found × Option Found) (p : String) (rest : List String) :
    scanPayloads graph now thr st (p :: rest)
      = match getPayloadTimestamp p with
        | none => scanPayloads graph now thr st rest
        | some ts =>
          if now - ts > thr then scanPayloads graph now thr st rest
          else
            match extractMinor p with
            | none => scanPayloads graph now thr st rest
            | some toV =>
              scanPayloads graph now thr
                (scanFroms toV (now - ts) st ((graph.lookup p).getD [])) rest := rfl

theorem scanFroms_nil (toV : Nat) (age : Int) (st : Option Found × Option Found) :
    scanFroms toV age st [] = st := rfl

theorem scanFroms_cons (toV : Nat) (age : Int) (st : Option Found × Option Found)
    (f : String) (rest : List String) :
    scanFroms toV age st (f :: rest)
      = match extractMinor f with
        | none => scanFroms toV age st rest
        | some fv =>
          let fp := if toV = fv then some ⟨f, age⟩ else st.1
          let fm := if toV = fv + 1 then some ⟨f, age⟩ else st.2
          if fp.isSome && fm.isSome then (fp, fm)
          else scanFroms toV age (fp, fm) rest := rfl

/-- A payload whose timestamp extraction fails is skipped by the classifier's
payload scan: the scan continues with the remaining payloads precisely as if
the payload were absent. -/
theorem streamScan_skip (now thr : Int) {p : String}
    (hp : getPayloadTimestamp p = none) :
    ∀ (l₁ l₂ : List String) (st : Bool × Int),
      streamScan now thr st (l₁ ++ p :: l₂) = streamScan now thr st (l₁ ++ l₂) := by
  intro l₁
  induction l₁ with
  | nil =>
    intro l₂ st
    rw [List.nil_append, List.nil_append, streamScan_cons, hp]
  | cons q l₁ ih =>
    intro l₂ st
    rw [List.cons_append, List.cons_append, streamScan_cons, streamScan_cons]
    cases hq : getPayloadTimestamp q
    · exact ih l₂ st
    · exact ih l₂ _

/-- A scan over payloads that all fail timestamp extraction leaves the state
unchanged. -/
theorem streamScan_allFail (now thr : Int) :
    ∀ {l : List String}, (∀ p ∈ l, getPayloadTimestamp p = none) →
      ∀ st, streamScan now thr st l = st := by
  intro l
  induction l with
  | nil => intro _ _; rfl
  | cons q rest ih =>
    intro h st
    have hq : getPayloadTimestamp q = none := h q (List.mem_cons_self q rest)
    rw [streamScan_cons, hq]
    exact ih (fun p hp => h p (List.mem_cons_of_mem q hp)) st

/-- The freshness flag computed by the payload scan: true exactly when the
initial flag was set or some payload parses and its age is strictly below the
threshold. -/
theorem streamScan_fst (now thr : Int) :
    ∀ (l : List String) (st : Bool × Int),
      (streamScan now thr st l).1
        = (st.1 || l.any fun p =>
            match getPayloadTimestamp p with
            | none => false
            | some ts => decide (now - ts < thr)) := by
  intro l
  induction l with
  | nil => intro st; simp [streamScan_nil]
  | cons q rest ih =>
    intro st
    rw [streamScan_cons, List.any_cons]
    cases hq : getPayloadTimestamp q
    · rw [ih st]
      simp
    · rename_i ts
      dsimp only
      rw [ih]
      by_cases hfresh : now - ts < thr <;> simp [hfresh, Bool.or_assoc]

/-- The newest instant computed by the payload scan: the maximum of the
initial value and all extracted timestamps. -/
theorem streamScan_snd (now thr : Int) :
    ∀ (l : List String) (st : Bool × Int),
      (streamScan now thr st l).2 = (l.filterMap getPayloadTimestamp).foldl max st.2 := by
  intro l
  induction l with
  | nil => intro st; simp [streamScan_nil]
  | cons q rest ih =>
    intro st
    rw [streamScan_cons, List.filterMap_cons]
    cases hq : getPayloadTimestamp q
    · exact ih st
    · rename_i ts
      dsimp only
      rw [ih]
      simp only [List.foldl_cons]
      congr 1
      rcases lt_trichotomy ts st.2 with h | h | h
      · rw [if_neg (by omega), max_eq_left (by omega)]
      · rw [if_neg (by omega), max_eq_left (by omega)]
      · rw [if_pos (by omega), max_eq_right (by omega)]

/-- The validator's payload loop ignores payloads that fail timestamp
extraction or whose age exceeds the staleness threshold. -/
theorem scanPayloads_stale (graph : List (String × List String)) (now thr : Int) :
    ∀ {l : List String},
      (∀ p ∈ l, ∀ ts, getPayloadTimestamp p = some ts → now - ts > thr) →
      ∀ st, scanPayloads graph now thr st l = st := by
  intro l
  induction l with
  | nil => intro _ _; rfl
  | cons q rest ih =>
    intro h st
    have hrest := fun p hp => h p (List.mem_cons_of_mem q hp)
    rw [scanPayloads_cons]
    cases hq : getPayloadTimestamp q
    · exact ih hrest st
    · rename_i ts
      dsimp only
      rw [if_pos (h q (List.mem_cons_self q rest) ts hq)]
      exact ih hrest st

/-- The inner source loop, when no source qualifies for the minor category:
the retained patch source is the LAST qualifying source of the adjacency list
(later qualifying sources overwrite earlier ones), and the minor slot stays
empty. -/
theorem scanFroms_lastQual (toV : Nat) (age : Int) :
    ∀ (adj : List String) (fp : Option Found),
      (∀ f ∈ adj, ∀ fv, extractMinor f = some fv → toV ≠ fv + 1) →
      scanFroms toV age (fp, none) adj =
        (((adj.filter fun f => extractMinor f == some toV).getLast?.map
            fun f => Found.mk f age).or fp, none) := by
  intro adj
  induction adj with
  | nil => intro fp _; simp [scanFroms_nil]
  | cons f rest ih =>
    intro fp h
    have hrest := fun g hg => h g (List.mem_cons_of_mem f hg)
    rw [scanFroms_cons]
    cases he : extractMinor f
    · have hcond : (extractMinor f == some toV) = false := by simp [he]
      simp only [List.filter_cons, hcond, Bool.false_eq_true, if_false]
      exact ih fp hrest
    · rename_i fv
      have hne : toV ≠ fv + 1 := h f (List.mem_cons_self f rest) fv he
      dsimp only
      rw [if_neg hne]
      simp only [Option.isSome_none, Bool.and_false, Bool.false_eq_true, if_false]
      by_cases htv : toV = fv
      · have hcond : (extractMinor f == some toV) = true := by simp [he, htv]
        rw [if_pos htv]
        simp only [List.filter_cons, hcond, if_true]
        rw [ih (some ⟨f, age⟩) hrest, getLast?_or]
        cases (rest.filter fun g => extractMinor g == some toV).getLast? <;> rfl
      · have hcond : (extractMinor f == some toV) = false := by simp [he, Ne.symm htv]
        rw [if_neg htv]
        simp only [List.filter_cons, hcond, Bool.false_eq_true, if_false]
        exact ih fp hrest

/-- A `checkEntry` result keeps the release's key and only exists for names
the z-release pattern accepts. -/
theorem checkEntry_some {graph : List (String × List String)}
    {thr old new : Int} {incl : Bool} {now : Int} {kv r : String × List String}
    (h : checkEntry graph thr old new incl now kv = some r) :
    r.1 = kv.1 ∧ ∃ v, zReleaseParse kv.1 = some v := by
  unfold checkEntry at h
  cases hz : zReleaseParse kv.1 <;> rw [hz] at h
  · exact absurd h (by simp)
  · rename_i v
    refine ⟨?_, v, rfl⟩
    dsimp only at h
    split_ifs at h
    all_goals injection h with h2
    all_goals rw [← h2]

/-- An `emptyEntry` result is the entry's key and only exists for names the
z-release pattern accepts. -/
theorem emptyEntry_some {old new : Int} {kv : String × List String} {s : String}
    (h : emptyEntry old new kv = some s) :
    s = kv.1 ∧ ∃ v, zReleaseParse kv.1 = some v := by
  unfold emptyEntry at h
  cases hz : zReleaseParse kv.1 <;> rw [hz] at h
  · exact absurd h (by simp)
  · rename_i v
    refine ⟨?_, v, rfl⟩
    dsimp only at h
    split_ifs at h
    all_goals injection h with h2
    all_goals rw [← h2]

/-- A `staleEntry` result keeps the entry's key and only exists for names the
z-release pattern accepts. -/
theorem staleEntry_some {thr old new now : Int} {kv : String × List String}
    {r : String × Int} (h : staleEntry thr old new now kv = some r) :
    r.1 = kv.1 ∧ ∃ v, zReleaseParse kv.1 = some v := by
  unfold staleEntry at h
  cases hz : zReleaseParse kv.1 <;> rw [hz] at h
  · exact absurd h (by simp)
  · rename_i v
    refine ⟨?_, v, rfl⟩
    dsimp only at h
    split_ifs at h
    all_goals injection h with h2
    all_goals rw [← h2]

theorem getUpgradeGraphAux_nil (nodes : List GraphNode)
    (acc : List (String × List String)) :
    getUpgradeGraphAux nodes [] acc = some acc := rfl

theorem getUpgradeGraphAux_cons (nodes : List GraphNode) (f t : Int)
    (rest : List (Int × Int)) (acc : List (String × List String)) :
    getUpgradeGraphAux nodes ((f, t) :: rest) acc
      = if f < 0 ∨ t < 0 then none
        else
          match nodes.get? t.toNat, nodes.get? f.toNat with
          | some nt, some nf =>
            getUpgradeGraphAux nodes rest (updAppend acc nt.version nf.version)
          | _, _ => none := rfl

/-- The edge loop of `getUpgradeGraph` under the all-indices-in-bounds
precondition: it succeeds and extends the accumulator with the incoming-edge
adjacency of the remaining edges. -/
theorem getUpgradeGraphAux_ok (nodes : List GraphNode) :
    ∀ (edges : List (Int × Int)) (acc : List (String × List String)),
      (∀ e ∈ edges, 0 ≤ e.1 ∧ e.1 < (nodes.length : Int)
        ∧ 0 ≤ e.2 ∧ e.2 < (nodes.length : Int)) →
      ∃ m, getUpgradeGraphAux nodes edges acc = some m ∧
        ∀ v, (m.lookup v).getD []
          = (acc.lookup v).getD [] ++ adjacencySpec ⟨nodes, edges⟩ v := by
  intro edges
  induction edges with
  | nil =>
    intro acc _
    exact ⟨acc, rfl, fun v => by simp [adjacencySpec]⟩
  | cons e rest ih =>
    intro acc h
    obtain ⟨f, t⟩ := e
    obtain ⟨hf0, hfl, ht0, htl⟩ := h (f, t) (List.mem_cons_self _ _)
    have htn : t.toNat < nodes.length := by omega
    have hfn : f.toNat < nodes.length := by omega
    have hnt : nodes.get? t.toNat = some (nodes.get ⟨t.toNat, htn⟩) :=
      List.get?_eq_get htn
    have hnf : nodes.get? f.toNat = some (nodes.get ⟨f.toNat, hfn⟩) :=
      List.get?_eq_get hfn
    rw [getUpgradeGraphAux_cons, if_neg (by omega), hnt, hnf]
    dsimp only
    obtain ⟨m, hm, hlook⟩ :=
      ih (updAppend acc (nodes.get ⟨t.toNat, htn⟩).version (nodes.get ⟨f.toNat, hfn⟩).version)
        (fun e he => h e (List.mem_cons_of_mem _ he))
    refine ⟨m, hm, fun v => ?_⟩
    rw [hlook v, lookup_updAppend]
    simp only [adjacencySpec, List.filterMap_cons] at *
    rw [hnt, hnf]
    dsimp only
    by_cases hv : v = (nodes.get ⟨t.toNat, htn⟩).version
    · rw [if_pos hv, if_pos hv.symm]
      simp [hv, List.append_assoc]
    · rw [if_neg hv, if_neg fun hc => hv hc.symm]

/-- C10: `getUpgradeGraph` performs no bounds check on edge indices.  Under
the precondition that every edge's indices lie within the node list it
returns the adjacency map described by `adjacencySpec` (target version ↦
source versions of its incoming edges, in edge-list order, duplicates kept);
on a decodable graph document with an edge index outside the node list it
panics with index-out-of-range (modelled as `none`) instead of returning an
error value. -/
theorem c10_getUpgradeGraph_bounds :
    (∀ g : Graph,
      (∀ e ∈ g.edges, 0 ≤ e.1 ∧ e.1 < (g.nodes.length : Int)
        ∧ 0 ≤ e.2 ∧ e.2 < (g.nodes.length : Int)) →
      ∃ m, getUpgradeGraph g = some m
        ∧ ∀ v, (m.lookup v).getD [] = adjacencySpec g v)
    ∧ getUpgradeGraph ⟨[⟨"4.12.1", "p1", 0⟩], [(0, 1)]⟩ = none := by
  constructor
  · intro g h
    obtain ⟨m, hm, hl⟩ := getUpgradeGraphAux_ok g.nodes g.edges [] h
    exact ⟨m, hm, fun v => by simpa using hl v⟩
  · rfl

/-- C10 witness: a concrete in-bounds graph (with a duplicate edge) on which
the theorem's first part applies. -/
theorem c10_witness :
    (∀ e ∈ (Graph.mk [⟨"4.12.1", "p1", 0⟩, ⟨"4.12.2", "p2", 0⟩] [(0, 1), (0, 1)]).edges,
      0 ≤ e.1 ∧ e.1 < ((Graph.mk [⟨"4.12.1", "p1", 0⟩, ⟨"4.12.2", "p2", 0⟩]
        [(0, 1), (0, 1)]).nodes.length : Int)
      ∧ 0 ≤ e.2 ∧ e.2 < ((Graph.mk [⟨"4.12.1", "p1", 0⟩, ⟨"4.12.2", "p2", 0⟩]
        [(0, 1), (0, 1)]).nodes.length : Int))
    ∧ ∃ m, getUpgradeGraph (Graph.mk [⟨"4.12.1", "p1", 0⟩, ⟨"4.12.2", "p2", 0⟩]
        [(0, 1), (0, 1)]) = some m
      ∧ ∀ v, (m.lookup v).getD []
        = adjacencySpec (Graph.mk [⟨"4.12.1", "p1", 0⟩, ⟨"4.12.2", "p2", 0⟩]
            [(0, 1), (0, 1)]) v :=
  ⟨by decide, c10_getUpgradeGraph_bounds.1 _ (by decide)⟩

/-- With nodup keys, two entries sharing a key are the same entry. -/
theorem eq_of_mem_keys_nodup {β : Type} {l : List (String × β)} (nd : NodupKeys l)
    {kv kv2 : String × β} (h1 : kv ∈ l) (h2 : kv2 ∈ l) (h : kv.1 = kv2.1) :
    kv = kv2 := by
  induction l with
  | nil => simp at h1
  | cons hd tl ih =>
    obtain ⟨hdnotin, ndtl⟩ := nodupKeys_cons_decomp nd
    rcases List.mem_cons.mp h1 with rfl | h1tl
    · rcases List.mem_cons.mp h2 with rfl | h2tl
      · rfl
      · exact absurd (List.mem_map.mpr ⟨kv2, h2tl, h.symm⟩) hdnotin
    · rcases List.mem_cons.mp h2 with rfl | h2tl
      · exact absurd (List.mem_map.mpr ⟨kv, h1tl, h⟩) hdnotin
      · exact ih ndtl h1tl h2tl

/-- C2 counterexample: the stream `4.12.0-0.ci` has the single payload
`junk`, whose timestamp extraction fails; at `now = 172800` with a one-hour
threshold the classifier does NOT drop the stream from both results — it puts
it into the stale map with age `now − 0`. -/
theorem c2_counterexample :
    getEmptyAndStaleStreams [("4.12.0-0.ci", ["junk"])] 3600 8 99 172800
      = ([], [("4.12.0-0.ci", 172800)])
    ∧ getPayloadTimestamp "junk" = none := ⟨rfl, rfl⟩

/-- C2 (amended): an in-window z-stream whose payload list is non-empty but
whose every payload fails timestamp extraction is NOT put into the empty set,
but IS put into the stale map, with age `now − 0` (Go's zero time). -/
theorem c2_amended (releases : List (String × List String))
    (thr old new now : Int) (stream : String) (payloads : List String) (v : Nat)
    (hnd : NodupKeys releases) (hmem : (stream, payloads) ∈ releases)
    (hz : zReleaseParse stream = some v) (hold : old ≤ (v : Int))
    (hnew : (v : Int) ≤ new) (hne : payloads ≠ [])
    (hfail : ∀ p ∈ payloads, getPayloadTimestamp p = none) :
    stream ∉ (getEmptyAndStaleStreams releases thr old new now).1
    ∧ (getEmptyAndStaleStreams releases thr old new now).2.lookup stream
        = some now := by
  rw [getEmptyAndStaleStreams_eq]
  constructor
  · intro hmemE
    obtain ⟨kv, hkv, hsome⟩ := List.mem_filterMap.mp hmemE
    obtain ⟨hs, -⟩ := emptyEntry_some hsome
    have hkveq : (stream, payloads) = kv :=
      eq_of_mem_keys_nodup hnd hmem hkv hs
    rw [← hkveq] at hsome
    unfold emptyEntry at hsome
    rw [hz] at hsome
    dsimp only at hsome
    rw [if_neg (by omega), if_neg (by omega)] at hsome
    rw [if_neg (by simpa [List.isEmpty_iff] using hne)] at hsome
    exact absurd hsome (by simp)
  · have hkey : ∀ kv r, staleEntry thr old new now kv = some r → r.1 = kv.1 :=
      fun kv r h => (staleEntry_some h).1
    have hl := lookup_filterMap hkey hnd hmem
    dsimp only at hl
    rw [hl]
    unfold staleEntry
    dsimp only
    rw [hz]
    dsimp only
    rw [if_neg (by omega), if_neg (by omega),
      if_neg (by simpa [List.isEmpty_iff] using hne),
      streamScan_allFail now thr hfail (false, 0)]
    simp

/-- C2 witness for the amended theorem, at the counterexample's input. -/
theorem c2_witness :
    NodupKeys [("4.12.0-0.ci", ["junk"])]
    ∧ ("4.12.0-0.ci", ["junk"]) ∈ [("4.12.0-0.ci", ["junk"])]
    ∧ zReleaseParse "4.12.0-0.ci" = some 12
    ∧ "4.12.0-0.ci" ∉ (getEmptyAndStaleStreams [("4.12.0-0.ci", ["junk"])] 3600 8 99 172800).1
    ∧ (getEmptyAndStaleStreams [("4.12.0-0.ci", ["junk"])] 3600 8 99 172800).2.lookup "4.12.0-0.ci"
        = some 172800 := by
  have h := c2_amended [("4.12.0-0.ci", ["junk"])] 3600 8 99 172800 "4.12.0-0.ci" ["junk"] 12
    (by decide) (by decide) (by decide) (by decide) (by decide) (by decide)
    (by
      intro p hp
      have hp2 : p = "junk" := by simpa using hp
      subst hp2
      rfl)
  exact ⟨by decide, by decide, by decide, h.1, h.2⟩

/-- C1 counterexample: the stream `4.12.0-0.ci` has one payload, dated
0001-01-02 (timestamp 86400); at `now = 864000` with a one-hour threshold no
payload is within the staleness threshold, yet `checkUpgrades` does NOT skip
the stream — it emits both negative findings. -/
theorem c1_counterexample :
    (checkUpgrades [] [("4.12.0-0.ci", ["p-0001-01-02-000000"])]
        3600 8 99 false 864000).lookup "4.12.0-0.ci"
      = some [noPatchMsg, noMinorMsg]
    ∧ getPayloadTimestamp "p-0001-01-02-000000" = some 86400
    ∧ (864000 : Int) - 86400 > 3600 := ⟨rfl, rfl, by decide⟩

/-- C1 (amended): an in-window z-stream none of whose payloads is within the
staleness threshold is NOT skipped by `checkUpgrades`: it receives exactly
the two negative findings (no recent valid patch upgrade, no recent valid
minor upgrade), independently of `includeHealthy`. -/
theorem c1_amended (graph releases : List (String × List String))
    (thr old new now : Int) (incl : Bool) (stream : String)
    (payloads : List String) (v : Nat)
    (hnd : NodupKeys releases) (hmem : (stream, payloads) ∈ releases)
    (hz : zReleaseParse stream = some v) (hold : old ≤ (v : Int))
    (hnew : (v : Int) ≤ new)
    (hstale : ∀ p ∈ payloads, ∀ ts, getPayloadTimestamp p = some ts → now - ts > thr) :
    (checkUpgrades graph releases thr old new incl now).lookup stream
      = some [noPatchMsg, noMinorMsg] := by
  have hkey : ∀ kv r, checkEntry graph thr old new incl now kv = some r → r.1 = kv.1 :=
    fun kv r h => (checkEntry_some h).1
  unfold checkUpgrades
  have hl := lookup_filterMap hkey hnd hmem
  dsimp only at hl
  rw [hl]
  unfold checkEntry
  dsimp only
  rw [hz]
  dsimp only
  rw [if_neg (by omega), if_neg (by omega), scanPayloads_stale graph now thr hstale (none, none)]
  rfl

/-- C1 witness, at the counterexample's input. -/
theorem c1_witness :
    NodupKeys [("4.12.0-0.ci", ["p-0001-01-02-000000"])]
    ∧ zReleaseParse "4.12.0-0.ci" = some 12
    ∧ (checkUpgrades [] [("4.12.0-0.ci", ["p-0001-01-02-000000"])]
        3600 8 99 false 864000).lookup "4.12.0-0.ci"
      = some [noPatchMsg, noMinorMsg] := by
  refine ⟨by decide, by decide, ?_⟩
  exact c1_amended [] [("4.12.0-0.ci", ["p-0001-01-02-000000"])] 3600 8 99 864000 false
    "4.12.0-0.ci" ["p-0001-01-02-000000"] 12 (by decide) (by decide) (by decide)
    (by decide) (by decide)
    (by
      intro p hp ts hts
      have hp2 : p = "p-0001-01-02-000000" := by simpa using hp
      subst hp2
      have : ts = 86400 := by
        have h2 : some ts = some 86400 := by rw [← hts]; rfl
        simpa using h2
      omega)

/-- C3: a payload identifier on which timestamp extraction fails never aborts
the stream classifier (the model is a total function); the offending payload
is skipped and the scan continues with the remaining payloads: the payload
scan, and with it the whole classification, is the same as on the stream
without the offending payload (the classifier-level equality needs the
remaining payload list to be non-empty, because an empty remainder is
classified Empty before any scan runs). -/
theorem c3_parse_failure_skipped (now thr old new : Int)
    (pre post : List (String × List String)) (stream p : String)
    (l1 l2 : List String) (hp : getPayloadTimestamp p = none)
    (hne : l1 ++ l2 ≠ []) :
    (∀ st, streamScan now thr st (l1 ++ p :: l2) = streamScan now thr st (l1 ++ l2))
    ∧ getEmptyAndStaleStreams (pre ++ (stream, l1 ++ p :: l2) :: post) thr old new now
      = getEmptyAndStaleStreams (pre ++ (stream, l1 ++ l2) :: post) thr old new now := by
  refine ⟨fun st => streamScan_skip now thr hp l1 l2 st, ?_⟩
  have hempA : (l1 ++ p :: l2).isEmpty = false := by
    simp [List.isEmpty_iff]
  have hempB : (l1 ++ l2).isEmpty = false := by
    simpa [List.isEmpty_iff] using hne
  have hemp : emptyEntry old new (stream, l1 ++ p :: l2)
      = emptyEntry old new (stream, l1 ++ l2) := by
    unfold emptyEntry
    dsimp only
    rw [hempA, hempB]
  have hst : staleEntry thr old new now (stream, l1 ++ p :: l2)
      = staleEntry thr old new now (stream, l1 ++ l2) := by
    unfold staleEntry
    dsimp only
    rw [hempA, hempB, streamScan_skip now thr hp l1 l2 (false, 0)]
  rw [getEmptyAndStaleStreams_eq, getEmptyAndStaleStreams_eq]
  simp only [List.filterMap_append, List.filterMap_cons, hemp, hst]

/-- C3 witness: a concrete failing payload between two parsable ones. -/
theorem c3_witness :
    getPayloadTimestamp "junk" = none
    ∧ ["4.12.1-0001-01-02-000000"] ++ ["4.12.2-0001-01-03-000000"] ≠ []
    ∧ streamScan 864000 3600 (false, 0)
        (["4.12.1-0001-01-02-000000"] ++ "junk" :: ["4.12.2-0001-01-03-000000"])
      = streamScan 864000 3600 (false, 0)
        (["4.12.1-0001-01-02-000000"] ++ ["4.12.2-0001-01-03-000000"])
    ∧ getEmptyAndStaleStreams
        ([] ++ ("4.12.0-0.ci", ["4.12.1-0001-01-02-000000"] ++ "junk" :: ["4.12.2-0001-01-03-000000"]) :: [])
        3600 8 99 864000
      = getEmptyAndStaleStreams
        ([] ++ ("4.12.0-0.ci", ["4.12.1-0001-01-02-000000"] ++ ["4.12.2-0001-01-03-000000"]) :: [])
        3600 8 99 864000 := by
  have h := c3_parse_failure_skipped 864000 3600 8 99 [] [] "4.12.0-0.ci" "junk"
    ["4.12.1-0001-01-02-000000"] ["4.12.2-0001-01-03-000000"] (by decide) (by decide)
  exact ⟨by decide, by decide, h.1 (false, 0), h.2⟩

/-- C8: a release-stream name the z-stream pattern rejects is excluded from
the classifier's empty set and stale map and from the validator's report, for
every input, and (the model being total functions) the exclusion produces no
error. -/
theorem c8_version_filter (name : String) (hz : zReleaseParse name = none)
    (graph releases : List (String × List String))
    (thrC thrU old new now : Int) (incl : Bool) :
    name ∉ (getEmptyAndStaleStreams releases thrC old new now).1
    ∧ (getEmptyAndStaleStreams releases thrC old new now).2.lookup name = none
    ∧ (checkUpgrades graph releases thrU old new incl now).lookup name = none := by
  rw [getEmptyAndStaleStreams_eq]
  refine ⟨?_, ?_, ?_⟩
  · intro hmem
    obtain ⟨kv, hkv, hsome⟩ := List.mem_filterMap.mp hmem
    obtain ⟨hs, v, hv⟩ := emptyEntry_some hsome
    rw [← hs] at hv
    rw [hv] at hz
    exact absurd hz (by simp)
  · apply lookup_eq_none_of_not_mem_keys
    intro hmem
    obtain ⟨r, hr, hr1⟩ := List.mem_map.mp hmem
    obtain ⟨kv, hkv, hsome⟩ := List.mem_filterMap.mp hr
    obtain ⟨hs, v, hv⟩ := staleEntry_some hsome
    rw [← hr1, hs] at hz
    rw [hv] at hz
    exact absurd hz (by simp)
  · apply lookup_eq_none_of_not_mem_keys
    intro hmem
    obtain ⟨r, hr, hr1⟩ := List.mem_map.mp hmem
    obtain ⟨kv, hkv, hsome⟩ := List.mem_filterMap.mp hr
    obtain ⟨hs, v, hv⟩ := checkEntry_some hsome
    rw [← hr1, hs] at hz
    rw [hv] at hz
    exact absurd hz (by simp)

/-- C8 witness: the non-z-stream name `stable` on concrete inputs. -/
theorem c8_witness :
    zReleaseParse "stable" = none
    ∧ ("stable" ∉ (getEmptyAndStaleStreams
          [("stable", []), ("4.12.0-0.ci", [])] 3600 8 99 864000).1
      ∧ (getEmptyAndStaleStreams
          [("stable", []), ("4.12.0-0.ci", [])] 3600 8 99 864000).2.lookup "stable" = none
      ∧ (checkUpgrades [] [("stable", []), ("4.12.0-0.ci", [])]
          3600 8 99 false 864000).lookup "stable" = none) :=
  ⟨by decide, c8_version_filter "stable" (by decide) [] [("stable", []), ("4.12.0-0.ci", [])]
    3600 3600 8 99 864000 false⟩

/-- `checkEntry` on a single-payload stream whose payload is recent and
minor-extractable: the entry reduces to the inner source scan over the
payload's adjacency list. -/
theorem checkEntry_single (graph : List (String × List String))
    (thr old new : Int) (incl : Bool) (now : Int) (stream p : String)
    (ts : Int) (v toV : Nat)
    (hz : zReleaseParse stream = some v) (hold : old ≤ (v : Int))
    (hnew : (v : Int) ≤ new) (hts : getPayloadTimestamp p = some ts)
    (hrec : ¬(now - ts > thr)) (hto : extractMinor p = some toV) :
    checkEntry graph thr old new incl now (stream, [p])
      = (let st := scanFroms toV (now - ts) (none, none) ((graph.lookup p).getD []);
         let fs := findings incl st.1 st.2;
         if fs.isEmpty then none else some (stream, fs)) := by
  unfold checkEntry
  dsimp only
  rw [hz]
  dsimp only
  rw [if_neg (by omega), if_neg (by omega), scanPayloads_cons, hts]
  dsimp only
  rw [if_neg hrec, hto]
  dsimp only
  rw [scanPayloads_nil]

/-- C6: for a single adjacency source of a recent payload whose minor version
extracts to `fv` against a payload minor `toV`: a patch-level upgrade is
recorded exactly when `toV = fv`, a minor-level upgrade exactly when
`toV = fv + 1`, and any other source minor (two or more below, or any above)
yields neither finding.  Stated on `checkUpgrades` with `includeHealthy` so
the recorded source is observable in the report entry. -/
theorem c6_source_minor_classification (stream p f : String)
    (ts now thr old new : Int) (v toV fv : Nat)
    (hz : zReleaseParse stream = some v) (hold : old ≤ (v : Int))
    (hnew : (v : Int) ≤ new) (hts : getPayloadTimestamp p = some ts)
    (hrec : now - ts ≤ thr) (hto : extractMinor p = some toV)
    (hfv : extractMinor f = some fv) :
    checkUpgrades [(p, [f])] [(stream, [p])] thr old new true now
      = [(stream,
          (if toV = fv then [healthyPatchMsg ⟨f, now - ts⟩] else [noPatchMsg])
          ++ (if toV = fv + 1 then [healthyMinorMsg ⟨f, now - ts⟩] else [noMinorMsg]))] := by
  unfold checkUpgrades
  simp only [List.filterMap_cons, List.filterMap_nil]
  rw [checkEntry_single [(p, [f])] thr old new true now stream p ts v toV hz hold hnew hts
    (by omega) hto]
  have hlk : (([(p, [f])] : List (String × List String)).lookup p).getD [] = [f] := by
    rw [lookup_cons', if_pos rfl]
    rfl
  rw [hlk, scanFroms_cons, hfv]
  dsimp only
  by_cases h1 : toV = fv
  · by_cases h2 : toV = fv + 1
    · omega
    · rw [if_pos h1, if_neg h2]
      simp [scanFroms_nil, findings, h1, h2]
  · by_cases h2 : toV = fv + 1
    · rw [if_neg h1, if_pos h2]
      simp [scanFroms_nil, findings, h1, h2]
    · rw [if_neg h1, if_neg h2]
      simp [scanFroms_nil, findings, h1, h2]

/-- C6 witness: payload minor 12, source minor 11 → exactly a minor-level
finding (and a negative patch finding). -/
theorem c6_witness :
    zReleaseParse "4.12.0-0.ci" = some 12
    ∧ getPayloadTimestamp "4.12.3-0001-01-02-000000" = some 86400
    ∧ extractMinor "4.11.7-x" = some 11
    ∧ checkUpgrades [("4.12.3-0001-01-02-000000", ["4.11.7-x"])]
        [("4.12.0-0.ci", ["4.12.3-0001-01-02-000000"])] 3600 8 99 true 86400
      = [("4.12.0-0.ci",
          (if 12 = 11 then [healthyPatchMsg ⟨"4.11.7-x", (86400 : Int) - 86400⟩]
            else [noPatchMsg])
          ++ (if 12 = 11 + 1 then [healthyMinorMsg ⟨"4.11.7-x", (86400 : Int) - 86400⟩]
            else [noMinorMsg]))] := by
  refine ⟨by decide, by decide, by decide, ?_⟩
  exact c6_source_minor_classification "4.12.0-0.ci" "4.12.3-0001-01-02-000000" "4.11.7-x"
    86400 86400 3600 8 99 12 12 11 (by decide) (by decide) (by decide) (by decide)
    (by decide) (by decide) (by decide)

/-- C4 counterexample: the recent payload's adjacency list holds two
patch-qualifying sources, `4.12.1-a` first and `4.12.2-b` second; the report
(with `includeHealthy`) names `4.12.2-b` — the SECOND qualifying source, not
the first, so a later qualifying source did replace the recorded one. -/
theorem c4_counterexample :
    checkUpgrades [("4.12.3-0001-01-02-000000", ["4.12.1-a", "4.12.2-b"])]
        [("4.12.0-0.ci", ["4.12.3-0001-01-02-000000"])] 3600 8 99 true 86400
      = [("4.12.0-0.ci",
          ["Has a recent valid patch level upgrade from 4.12.2-b 0.0 days ago",
           "Does not have a recent valid minor level upgrade"])]
    ∧ (["4.12.1-a", "4.12.2-b"].filter fun f => extractMinor f == some 12).head?
        = some "4.12.1-a"
    ∧ ("4.12.2-b" : String) ≠ "4.12.1-a" := ⟨by decide, by decide, by decide⟩

/-- C4 (amended): later qualifying sources DO replace the recorded one while
the scan continues; when no source of the (recent, single) payload's
adjacency list qualifies for the minor category — so the both-found early
exit never fires — the finding retained for the patch category is the LAST
qualifying source of the adjacency list. -/
theorem c4_amended (graph : List (String × List String)) (stream p : String)
    (adj : List String) (ts now thr old new : Int) (v toV : Nat)
    (hz : zReleaseParse stream = some v) (hold : old ≤ (v : Int))
    (hnew : (v : Int) ≤ new) (hts : getPayloadTimestamp p = some ts)
    (hrec : now - ts ≤ thr) (hto : extractMinor p = some toV)
    (hadj : graph.lookup p = some adj)
    (hnominor : ∀ f ∈ adj, ∀ fv, extractMinor f = some fv → toV ≠ fv + 1) :
    checkUpgrades graph [(stream, [p])] thr old new true now
      = [(stream,
          (match (adj.filter fun f => extractMinor f == some toV).getLast? with
            | some f => [healthyPatchMsg ⟨f, now - ts⟩]
            | none => [noPatchMsg]) ++ [noMinorMsg])] := by
  unfold checkUpgrades
  simp only [List.filterMap_cons, List.filterMap_nil]
  rw [checkEntry_single graph thr old new true now stream p ts v toV hz hold hnew hts
    (by omega) hto]
  rw [hadj]
  simp only [Option.getD_some]
  rw [scanFroms_lastQual toV (now - ts) adj none hnominor]
  cases hgl : (adj.filter fun f => extractMinor f == some toV).getLast?
  · simp [findings]
  · simp [findings]

/-- C4 witness for the amended theorem, at the counterexample's input. -/
theorem c4_witness :
    zReleaseParse "4.12.0-0.ci" = some 12
    ∧ (["4.12.1-a", "4.12.2-b"].filter fun f => extractMinor f == some 12).getLast?
        = some "4.12.2-b"
    ∧ checkUpgrades [("4.12.3-0001-01-02-000000", ["4.12.1-a", "4.12.2-b"])]
        [("4.12.0-0.ci", ["4.12.3-0001-01-02-000000"])] 3600 8 99 true 86400
      = [("4.12.0-0.ci",
          (match (["4.12.1-a", "4.12.2-b"].filter fun f => extractMinor f == some 12).getLast? with
            | some f => [healthyPatchMsg ⟨f, (86400 : Int) - 86400⟩]
            | none => [noPatchMsg]) ++ [noMinorMsg])] := by
  refine ⟨by decide, by decide, ?_⟩
  exact c4_amended [("4.12.3-0001-01-02-000000", ["4.12.1-a", "4.12.2-b"])] "4.12.0-0.ci"
    "4.12.3-0001-01-02-000000" ["4.12.1-a", "4.12.2-b"] 86400 86400 3600 8 99 12 12
    (by decide) (by decide) (by decide) (by decide) (by decide) (by decide) (by decide)
    (by
      intro f hf fv hfv
      have hf2 : f = "4.12.1-a" ∨ f = "4.12.2-b" := by simpa using hf
      rcases hf2 with rfl | rfl <;>
      · have hv12 : fv = 12 := by
          have h2 : some fv = some 12 := by rw [← hfv]; rfl
          simpa using h2
        omega)

theorem foldl_max_comm : ∀ (l : List Int) (a b : Int),
    l.foldl max (max a b) = max a (l.foldl max b)
  | [], _, _ => rfl
  | c :: t, a, b => by
    simp only [List.foldl_cons]
    rw [max_assoc, foldl_max_comm t a (max b c)]

/-- The fold the classifier computes for `newest` (starting from Go's zero
time `0`) equals `max 0` of the newest extracted timestamp. -/
theorem foldl_max_of_max? {l : List Int} {ts : Int} (h : l.max? = some ts) :
    l.foldl max 0 = max 0 ts := by
  cases l with
  | nil => exact absurd h (by simp)
  | cons a t =>
    have hdef : (a :: t).max? = some (t.foldl max a) := rfl
    rw [hdef] at h
    have hts : t.foldl max a = ts := by simpa using h
    rw [List.foldl_cons, foldl_max_comm t 0 a, hts]

theorem staleEntry_none_of_isEmpty {thr old new now : Int}
    {kv : String × List String} (h : kv.2.isEmpty = true) :
    staleEntry thr old new now kv = none := by
  unfold staleEntry
  cases hz : zReleaseParse kv.1
  · rfl
  · dsimp only
    split_ifs
    all_goals simp_all

theorem emptyEntry_isEmpty {old new : Int} {kv : String × List String} {s : String}
    (h : emptyEntry old new kv = some s) : kv.2.isEmpty = true := by
  unfold emptyEntry at h
  cases hz : zReleaseParse kv.1 <;> rw [hz] at h
  · exact absurd h (by simp)
  · dsimp only at h
    split_ifs at h
    all_goals simp_all

/-- C5 counterexample: the payload `a-0000-12-31-000000` parses to the
instant −86400 (year 0 is before Go's zero time), so the classifier's
`newest` tracker — which starts at the zero value — never adopts it; the
recorded stale age is `now − 0 = 172800`, NOT now minus the newest extracted
timestamp (which would be 172800 − (−86400) = 259200). -/
theorem c5_counterexample :
    (getEmptyAndStaleStreams [("4.12.0-0.ci", ["a-0000-12-31-000000"])]
        3600 8 99 172800).2.lookup "4.12.0-0.ci" = some 172800
    ∧ newestTimestamp ["a-0000-12-31-000000"] = some (-86400)
    ∧ (172800 : Int) ≠ 172800 - (-86400) := ⟨rfl, rfl, by decide⟩

/-- C5 (amended): for every call of the classifier on a key-nodup map and
every in-window z-stream entry: (i) an empty payload list puts the stream in
the empty set and never in the stale map; (ii) a non-empty payload list puts
the stream in the stale map iff no parsable payload has age strictly below
the threshold; (iii) the recorded age is now minus the maximum of the zero
instant and all extracted timestamps (equal to now minus the newest extracted
timestamp whenever that is at or after the zero instant, by (iv)); and
(v) the empty set and the stale map of one call are disjoint. -/
theorem c5_amended (releases : List (String × List String))
    (thr old new now : Int) (stream : String) (payloads : List String) (v : Nat)
    (hnd : NodupKeys releases) (hmem : (stream, payloads) ∈ releases)
    (hz : zReleaseParse stream = some v) (hold : old ≤ (v : Int))
    (hnew : (v : Int) ≤ new) :
    (payloads = [] →
      stream ∈ (getEmptyAndStaleStreams releases thr old new now).1
      ∧ (getEmptyAndStaleStreams releases thr old new now).2.lookup stream = none)
    ∧ (payloads ≠ [] →
      (((getEmptyAndStaleStreams releases thr old new now).2.lookup stream).isSome
        ↔ ¬∃ p ∈ payloads, ∃ ts, getPayloadTimestamp p = some ts ∧ now - ts < thr))
    ∧ (payloads ≠ [] →
      (getEmptyAndStaleStreams releases thr old new now).2.lookup stream ≠ none →
      (getEmptyAndStaleStreams releases thr old new now).2.lookup stream
        = some (now - (payloads.filterMap getPayloadTimestamp).foldl max 0))
    ∧ (∀ ts, newestTimestamp payloads = some ts → 0 ≤ ts →
      (payloads.filterMap getPayloadTimestamp).foldl max 0 = ts)
    ∧ (∀ s, s ∈ (getEmptyAndStaleStreams releases thr old new now).1 →
      (getEmptyAndStaleStreams releases thr old new now).2.lookup s = none) := by
  have hkey : ∀ kv r, staleEntry thr old new now kv = some r → r.1 = kv.1 :=
    fun kv r h => (staleEntry_some h).1
  have hstl : (getEmptyAndStaleStreams releases thr old new now).2.lookup stream
      = (staleEntry thr old new now (stream, payloads)).map Prod.snd := by
    rw [getEmptyAndStaleStreams_eq]
    have hl := lookup_filterMap hkey hnd hmem
    dsimp only at hl
    exact hl
  have hfreshB : ∀ p : String,
      ((match getPayloadTimestamp p with
        | none => false
        | some ts => decide (now - ts < thr)) = true)
      ↔ ∃ ts, getPayloadTimestamp p = some ts ∧ now - ts < thr := by
    intro p
    cases hp : getPayloadTimestamp p <;> simp [hp]
  refine ⟨?_, ?_, ?_, ?_, ?_⟩
  · intro hempty
    subst hempty
    constructor
    · rw [getEmptyAndStaleStreams_eq]
      refine List.mem_filterMap.mpr ⟨(stream, []), hmem, ?_⟩
      unfold emptyEntry
      rw [hz]
      dsimp only
      rw [if_neg (by omega), if_neg (by omega)]
      rfl
    · rw [hstl, staleEntry_none_of_isEmpty (by rfl)]
      rfl
  · intro hne
    rw [hstl]
    unfold staleEntry
    rw [hz]
    dsimp only
    rw [if_neg (by omega), if_neg (by omega),
      if_neg (by simpa [List.isEmpty_iff] using hne)]
    rw [show (streamScan now thr (false, 0) payloads).1
        = payloads.any fun p =>
            match getPayloadTimestamp p with
            | none => false
            | some ts => decide (now - ts < thr) from by
      rw [streamScan_fst now thr payloads (false, 0)]
      simp]
    cases hany : payloads.any fun p =>
        match getPayloadTimestamp p with
        | none => false
        | some ts => decide (now - ts < thr)
    · rw [if_neg (by decide)]
      simp only [Option.map_some', Option.isSome_some]
      refine iff_of_true trivial ?_
      rintro ⟨p, hp, ts, hts, hlt⟩
      have hcontra : (payloads.any fun p =>
          match getPayloadTimestamp p with
          | none => false
          | some ts => decide (now - ts < thr)) = true := List.any_eq_true.mpr
        ⟨p, hp, (hfreshB p).mpr ⟨ts, hts, hlt⟩⟩
      rw [hany] at hcontra
      exact absurd hcontra (by simp)
    · rw [if_pos rfl]
      simp only [Option.map_none', Option.isSome_none]
      refine iff_of_false (by decide) (not_not_intro ?_)
      obtain ⟨p, hp, hb⟩ := List.any_eq_true.mp hany
      obtain ⟨ts, hts, hlt⟩ := (hfreshB p).mp hb
      exact ⟨p, hp, ts, hts, hlt⟩
  · intro hne hsome
    rw [hstl] at hsome ⊢
    unfold staleEntry at hsome ⊢
    rw [hz] at hsome ⊢
    dsimp only at hsome ⊢
    rw [if_neg (by omega), if_neg (by omega),
      if_neg (by simpa [List.isEmpty_iff] using hne)] at hsome ⊢
    cases hfn : (streamScan now thr (false, 0) payloads).1
    · rw [if_neg (by decide)]
      simp only [Option.map_some']
      rw [show (streamScan now thr (false, 0) payloads).2
          = (payloads.filterMap getPayloadTimestamp).foldl max 0 from
        streamScan_snd now thr payloads (false, 0)]
    · rw [hfn] at hsome
      rw [if_pos rfl] at hsome
      simp at hsome
  · intro ts hmax hpos
    have := foldl_max_of_max? hmax
    rw [this, max_eq_right hpos]
  · intro s hs
    rw [getEmptyAndStaleStreams_eq] at hs ⊢
    obtain ⟨kv, hkv, hsome⟩ := List.mem_filterMap.mp hs
    have hse : s = kv.1 := (emptyEntry_some hsome).1
    have hl := lookup_filterMap hkey hnd hkv
    rw [hse, hl, staleEntry_none_of_isEmpty (emptyEntry_isEmpty hsome)]
    rfl

/-- C5 witness: a stream with one stale (4-day-old) payload at day 10; the
stream is stale, the recorded age equals now minus the newest extracted
timestamp (which is after the zero instant). -/
theorem c5_witness :
    NodupKeys [("4.12.0-0.ci", ["4.12.1-0001-01-05-000000"])]
    ∧ ((getEmptyAndStaleStreams [("4.12.0-0.ci", ["4.12.1-0001-01-05-000000"])]
        3600 8 99 864000).2.lookup "4.12.0-0.ci").isSome
    ∧ (getEmptyAndStaleStreams [("4.12.0-0.ci", ["4.12.1-0001-01-05-000000"])]
        3600 8 99 864000).2.lookup "4.12.0-0.ci"
      = some (864000 - (["4.12.1-0001-01-05-000000"].filterMap getPayloadTimestamp).foldl max 0)
    ∧ (["4.12.1-0001-01-05-000000"].filterMap getPayloadTimestamp).foldl max 0 = 345600
    ∧ ¬∃ p ∈ ["4.12.1-0001-01-05-000000"], ∃ ts,
        getPayloadTimestamp p = some ts ∧ (864000 : Int) - ts < 3600 := by
  have h := c5_amended [("4.12.0-0.ci", ["4.12.1-0001-01-05-000000"])] 3600 8 99 864000
    "4.12.0-0.ci" ["4.12.1-0001-01-05-000000"] 12
    (by decide) (by decide) (by decide) (by decide) (by decide)
  have hnex : ¬∃ p ∈ ["4.12.1-0001-01-05-000000"], ∃ ts,
      getPayloadTimestamp p = some ts ∧ (864000 : Int) - ts < 3600 := by
    rintro ⟨p, hp, ts, hts, hlt⟩
    have hp2 : p = "4.12.1-0001-01-05-000000" := by simpa using hp
    subst hp2
    have hts2 : ts = 345600 := by
      have h2 : some ts = some 345600 := by rw [← hts]; rfl
      simpa using h2
    omega
  refine ⟨by decide, ?_, ?_, by decide, hnex⟩
  · exact (h.2.1 (by decide)).mpr hnex
  · exact h.2.2.1 (by decide) (by decide)

/-- C7 counterexample: two flagged streams with the same minor version
(`4.12.0-0.ci` and `4.12.0-0.nightly`, both empty).  Both appear in the
report's stream order, adjacent, so the order is NOT strictly descending in
the minor version (12 > 12 fails). -/
theorem c7_counterexample :
    reportOrder ((reportFindings [] [("4.12.0-0.ci", []), ("4.12.0-0.nightly", [])] []
        86400 604800 86400 8 99 false 86400).map Prod.fst)
      = ["4.12.0-0.ci", "4.12.0-0.nightly"]
    ∧ ¬ List.Pairwise (fun a b => minorKey b < minorKey a)
        (reportOrder ((reportFindings [] [("4.12.0-0.ci", []), ("4.12.0-0.nightly", [])] []
          86400 604800 86400 8 99 false 86400).map Prod.fst)) := by
  have heq : reportOrder ((reportFindings [] [("4.12.0-0.ci", []), ("4.12.0-0.nightly", [])] []
      86400 604800 86400 8 99 false 86400).map Prod.fst)
      = ["4.12.0-0.ci", "4.12.0-0.nightly"] := by decide
  refine ⟨heq, ?_⟩
  rw [heq]
  decide

/-- C7 (amended): the stream sections of every report (`renderReport` renders
them exactly in `reportOrder`) are ordered by NON-strictly descending minor
version: whenever section A precedes section B, A's minor version is greater
than or equal to B's (ties between streams with the same minor are broken by
the preceding lexicographic sort, in unspecified relative order). -/
theorem c7_amended (streams : List String) :
    List.Pairwise (fun a b => minorKey b ≤ minorKey a) (reportOrder streams) := by
  haveI htr : IsTrans String (fun a b => minorKey b ≤ minorKey a) :=
    ⟨fun _ _ _ hab hbc => le_trans hbc hab⟩
  haveI hto : IsTotal String (fun a b => minorKey b ≤ minorKey a) :=
    ⟨fun a b => le_total (minorKey b) (minorKey a)⟩
  exact List.sorted_insertionSort (fun a b => minorKey b ≤ minorKey a)
    (streams.insertionSort fun a b => a.data ≤ b.data)

/-- Two association lists represent the same Go map: both key-nodup, with
identical lookups. -/
def MapEquiv (m m2 : List (String × List String)) : Prop :=
  NodupKeys m ∧ NodupKeys m2 ∧ ∀ k, m.lookup k = m2.lookup k

theorem mapEquiv_refl {m : List (String × List String)} (nd : NodupKeys m) :
    MapEquiv m m := ⟨nd, nd, fun _ => rfl⟩

theorem mapEquiv_of_perm {m m2 : List (String × List String)}
    (nd : NodupKeys m) (h : m.Perm m2) : MapEquiv m m2 :=
  ⟨nd, ((h.map Prod.fst).nodup_iff).mp nd, lookup_perm h nd⟩

theorem mapEquiv_trans {a b c : List (String × List String)}
    (h1 : MapEquiv a b) (h2 : MapEquiv b c) : MapEquiv a c :=
  ⟨h1.1, h2.2.1, fun k => (h1.2.2 k).trans (h2.2.2 k)⟩

theorem mapEquiv_updAppend {m m2 : List (String × List String)}
    (h : MapEquiv m m2) (k x : String) :
    MapEquiv (updAppend m k x) (updAppend m2 k x) := by
  refine ⟨nodupKeys_updAppend h.1, nodupKeys_updAppend h.2.1, fun v => ?_⟩
  rw [lookup_updAppend, lookup_updAppend, h.2.2 k, h.2.2 v]

/-- One conditional `report[key a] = append(report[key a], msg)` step of a
merge loop, as a function of the loop element (proof-layer form of the loop
bodies in `reportFindings`). -/
def stepUpd {α : Type} (key : α → String) (act : α → Option String)
    (rep : List (String × List String)) (a : α) : List (String × List String) :=
  match act a with
  | some msg => updAppend rep (key a) msg
  | none => rep

theorem mapEquiv_stepUpd {α : Type} (key : α → String) (act : α → Option String)
    {r r2 : List (String × List String)} (h : MapEquiv r r2) (a : α) :
    MapEquiv (stepUpd key act r a) (stepUpd key act r2 a) := by
  unfold stepUpd
  cases act a
  · exact h
  · exact mapEquiv_updAppend h _ _

theorem stepUpd_comm {α : Type} (key : α → String) (act : α → Option String)
    {r r2 : List (String × List String)} (h : MapEquiv r r2) {a b : α}
    (hne : key a ≠ key b) :
    MapEquiv (stepUpd key act (stepUpd key act r a) b)
             (stepUpd key act (stepUpd key act r2 b) a) := by
  unfold stepUpd
  cases ha : act a <;> cases hb : act b
  · exact h
  · exact mapEquiv_updAppend h _ _
  · exact mapEquiv_updAppend h _ _
  · rename_i ma mb
    refine ⟨nodupKeys_updAppend (nodupKeys_updAppend h.1),
      nodupKeys_updAppend (nodupKeys_updAppend h.2.1), fun v => ?_⟩
    by_cases hv1 : v = key a <;> by_cases hv2 : v = key b
    · exact absurd (hv1.symm.trans hv2) hne
    · subst hv1
      have hab : (key a = key b) = False := eq_false hne
      simp only [lookup_updAppend, hab, eq_self_iff_true, if_true, if_false, h.2.2]
    · subst hv2
      have hba : (key b = key a) = False := eq_false fun hc => hne hc.symm
      simp only [lookup_updAppend, hba, eq_self_iff_true, if_true, if_false, h.2.2]
    · have hv1f : (v = key a) = False := eq_false hv1
      have hv2f : (v = key b) = False := eq_false hv2
      simp only [lookup_updAppend, hv1f, hv2f, if_false, h.2.2]

theorem foldl_stepUpd_congr {α : Type} (key : α → String) (act : α → Option String) :
    ∀ (xs : List α) {r r2 : List (String × List String)}, MapEquiv r r2 →
      MapEquiv (xs.foldl (stepUpd key act) r) (xs.foldl (stepUpd key act) r2) := by
  intro xs
  induction xs with
  | nil =>
    intro r r2 h
    exact h
  | cons a xs ih =>
    intro r r2 h
    exact ih (mapEquiv_stepUpd key act h a)

theorem foldl_stepUpd_perm1 {α : Type} (key : α → String) (act : α → Option String)
    {xs xs2 : List α} (hp : xs.Perm xs2) :
    (xs.map key).Nodup → ∀ {r r2 : List (String × List String)}, MapEquiv r r2 →
    MapEquiv (xs.foldl (stepUpd key act) r) (xs2.foldl (stepUpd key act) r2) := by
  induction hp with
  | nil =>
    intro _ r r2 h
    exact h
  | cons a hp ih =>
    intro hnd r r2 h
    rw [List.map_cons] at hnd
    exact ih (List.nodup_cons.mp hnd).2 (mapEquiv_stepUpd key act h a)
  | swap x y l =>
    intro hnd r r2 h
    have hnd2 : (key y :: key x :: l.map key).Nodup := by
      simpa only [List.map_cons] using hnd
    have hne : key y ≠ key x := by
      have hni := (List.nodup_cons.mp hnd2).1
      intro hc
      exact hni (List.mem_cons.mpr (Or.inl hc))
    simp only [List.foldl_cons]
    exact foldl_stepUpd_congr key act l (stepUpd_comm key act h hne)
  | trans h1 h2 ih1 ih2 =>
    intro hnd r r2 h
    have hnd2 : _ := ((h1.map key).nodup_iff).mp hnd
    exact mapEquiv_trans (ih1 hnd (mapEquiv_refl h.1)) (ih2 hnd2 h)

theorem foldl_stepUpd_perm {α : Type} (key : α → String) (act act2 : α → Option String)
    (hact : ∀ a, act a = act2 a) {xs xs2 : List α} (hp : xs.Perm xs2)
    (hnd : (xs.map key).Nodup) {r r2 : List (String × List String)}
    (h : MapEquiv r r2) :
    MapEquiv (xs.foldl (stepUpd key act) r) (xs2.foldl (stepUpd key act2) r2) := by
  have hfun : stepUpd key act2 = stepUpd key act := by
    funext rep a
    unfold stepUpd
    rw [← hact a]
  rw [hfun]
  exact foldl_stepUpd_perm1 key act hp hnd h

/-- The validator's payload loop reads the graph only through lookups. -/
theorem scanPayloads_graph_congr {g g2 : List (String × List String)}
    (hg : ∀ p, g.lookup p = g2.lookup p) (now thr : Int) :
    ∀ (l : List String) (st : Option Found × Option Found),
      scanPayloads g now thr st l = scanPayloads g2 now thr st l := by
  intro l
  induction l with
  | nil => intro st; rfl
  | cons p rest ih =>
    intro st
    rw [scanPayloads_cons, scanPayloads_cons]
    cases hp : getPayloadTimestamp p
    · exact ih st
    · rename_i ts
      dsimp only
      by_cases hage : now - ts > thr
      · rw [if_pos hage, if_pos hage]
        exact ih st
      · rw [if_neg hage, if_neg hage]
        cases hto : extractMinor p
        · exact ih st
        · dsimp only
          rw [hg p]
          exact ih _

theorem checkUpgrades_graph_congr {g g2 : List (String × List String)}
    (hg : ∀ p, g.lookup p = g2.lookup p) (rel : List (String × List String))
    (thr old new : Int) (incl : Bool) (now : Int) :
    checkUpgrades g rel thr old new incl now = checkUpgrades g2 rel thr old new incl now := by
  unfold checkUpgrades
  have hce : checkEntry g thr old new incl now = checkEntry g2 thr old new incl now := by
    funext kv
    unfold checkEntry
    rw [scanPayloads_graph_congr hg now thr kv.2 (none, none)]
  rw [hce]

theorem mapEquiv_checkUpgrades {g g2 all all2 : List (String × List String)}
    (hndg : NodupKeys g) (hpg : g.Perm g2) (hndall : NodupKeys all)
    (hpall : all.Perm all2) (thr old new : Int) (incl : Bool) (now : Int) :
    MapEquiv (checkUpgrades g all thr old new incl now)
             (checkUpgrades g2 all2 thr old new incl now) := by
  have hg : ∀ p, g.lookup p = g2.lookup p := lookup_perm hpg hndg
  have hnd0 : NodupKeys (checkUpgrades g all thr old new incl now) :=
    nodupKeys_filterMap (fun kv r h => (checkEntry_some h).1) hndall
  have hperm : (checkUpgrades g all thr old new incl now).Perm
      (checkUpgrades g all2 thr old new incl now) := hpall.filterMap _
  have heq := checkUpgrades_graph_congr hg all2 thr old new incl now
  rw [← heq]
  exact mapEquiv_of_perm hnd0 hperm

/-- The empty-stream list produced from a key-nodup map has no duplicates
(it is a sublist of the input keys). -/
theorem emptyList_sublist_keys (old new : Int) :
    ∀ l : List (String × List String),
      (l.filterMap (emptyEntry old new)).Sublist (l.map Prod.fst) := by
  intro l
  induction l with
  | nil => simp
  | cons kv rest ih =>
    rw [List.filterMap_cons]
    cases hfk : emptyEntry old new kv with
    | none => exact ih.cons kv.1
    | some s =>
      rw [List.map_cons, (emptyEntry_some hfk).1]
      exact ih.cons₂ kv.1

theorem contains_congr_of_perm {l l2 : List String} (h : l.Perm l2) (s : String) :
    l.contains s = l2.contains s := by
  by_cases hm : s ∈ l
  · rw [List.contains_eq_any_beq, List.contains_eq_any_beq]
    rw [List.any_eq_true.mpr ⟨s, hm, by simp⟩, List.any_eq_true.mpr ⟨s, h.mem_iff.mp hm, by simp⟩]
  · have hm2 : s ∉ l2 := fun hc => hm (h.mem_iff.mpr hc)
    rw [List.contains_eq_any_beq, List.contains_eq_any_beq]
    rw [List.any_eq_false.mpr, List.any_eq_false.mpr]
    · intro x hx
      simp only [beq_iff_eq]
      intro hc
      exact hm2 (hc ▸ hx)
    · intro x hx
      simp only [beq_iff_eq]
      intro hc
      exact hm (hc ▸ hx)

/-- The canonical `sort.Strings` pass: permutation-equal inputs sort to the
same list (lexicographic order is a linear order, so sorted permutations are
equal). -/
theorem insertionSortStr_eq_of_perm {xs xs2 : List String} (h : xs.Perm xs2) :
    (xs.insertionSort fun a b => a.data ≤ b.data)
      = xs2.insertionSort fun a b => a.data ≤ b.data := by
  haveI : IsTrans String (fun a b : String => a.data ≤ b.data) :=
    ⟨fun _ _ _ => le_trans⟩
  haveI : IsTotal String (fun a b : String => a.data ≤ b.data) :=
    ⟨fun a b => le_total _ _⟩
  haveI : IsAntisymm String (fun a b : String => a.data ≤ b.data) :=
    ⟨fun a b h1 h2 => by
      have hd := le_antisymm h1 h2
      cases a
      cases b
      exact congrArg String.mk hd⟩
  exact List.eq_of_perm_of_sorted
    (((List.perm_insertionSort _ xs).trans h).trans (List.perm_insertionSort _ xs2).symm)
    (List.sorted_insertionSort _ xs) (List.sorted_insertionSort _ xs2)

theorem reportOrder_eq_of_perm {xs xs2 : List String} (h : xs.Perm xs2) :
    reportOrder xs = reportOrder xs2 := by
  unfold reportOrder
  rw [insertionSortStr_eq_of_perm h]

theorem keys_perm_of_mapEquiv {m m2 : List (String × List String)}
    (h : MapEquiv m m2) : (m.map Prod.fst).Perm (m2.map Prod.fst) := by
  rw [List.perm_ext_iff_of_nodup h.1 h.2.1]
  intro k
  rw [mem_keys_iff_lookup, mem_keys_iff_lookup, h.2.2 k]

theorem renderReport_congr {rep rep2 : List (String × List String)}
    (h : ∀ k, rep.lookup k = rep2.lookup k) (streams : List String)
    (om nm : Int) :
    renderReport rep streams om nm = renderReport rep2 streams om nm := by
  unfold renderReport
  have hfold : ∀ (l : List String) (acc : String),
      l.foldl (fun acc s => acc ++ renderStream rep s) acc
        = l.foldl (fun acc s => acc ++ renderStream rep2 s) acc := by
    intro l
    induction l with
    | nil => intro acc; rfl
    | cons s t ih =>
      intro acc
      rw [List.foldl_cons, List.foldl_cons,
        show renderStream rep s = renderStream rep2 s from by
          unfold renderStream
          rw [h s]]
      exact ih _
  rw [hfold]

/-- The four merge loops of `generateReport`, over permutation-equal loop
lists with pointwise-equal conditions, preserve map equivalence. -/
theorem mapEquiv_foldChain
    (S0 S02 : List (String × List String)) (h0 : MapEquiv S0 S02)
    (ae ae2 : List String) (hae : ae.Perm ae2) (hndae : ae.Nodup)
    (asl asl2 : List (String × Int)) (has : asl.Perm asl2)
    (hndas : (asl.map Prod.fst).Nodup)
    (le le2 : List String) (hle : le.Perm le2) (hndle : le.Nodup)
    (vs vs2 : List (String × Int)) (hvs : vs.Perm vs2)
    (hndvs : (vs.map Prod.fst).Nodup)
    (ls ls2 : List (String × Int)) (hls : ∀ s, ls.lookup s = ls2.lookup s)
    (lec lec2 : List String) (hcont : ∀ s, lec.contains s = lec2.contains s)
    (aL : Int) :
    MapEquiv
      (vs.foldl (fun rep sa => updAppend rep sa.1 (msgVeryStale sa.2))
        (le.foldl (fun rep s => updAppend rep s msgNoBuilt)
          (asl.foldl (fun rep sa =>
              if (ls.lookup sa.1).isSome then rep
              else updAppend rep sa.1 (msgAcceptedStale sa.2 aL))
            (ae.foldl (fun rep s =>
                if (ls.lookup s).isSome then
                  (if lec.contains s then rep else updAppend rep s msgNoAcceptedBuilt)
                else updAppend rep s msgNoAcceptedRecent) S0))))
      (vs2.foldl (fun rep sa => updAppend rep sa.1 (msgVeryStale sa.2))
        (le2.foldl (fun rep s => updAppend rep s msgNoBuilt)
          (asl2.foldl (fun rep sa =>
              if (ls2.lookup sa.1).isSome then rep
              else updAppend rep sa.1 (msgAcceptedStale sa.2 aL))
            (ae2.foldl (fun rep s =>
                if (ls2.lookup s).isSome then
                  (if lec2.contains s then rep else updAppend rep s msgNoAcceptedBuilt)
                else updAppend rep s msgNoAcceptedRecent) S02)))) := by
  have e1 : (fun (rep : List (String × List String)) (s : String) =>
      if (ls.lookup s).isSome then
        (if lec.contains s then rep else updAppend rep s msgNoAcceptedBuilt)
      else updAppend rep s msgNoAcceptedRecent)
      = stepUpd (fun s => s) (fun s =>
          if (ls.lookup s).isSome then
            (if lec.contains s then none else some msgNoAcceptedBuilt)
          else some msgNoAcceptedRecent) := by
    funext rep s
    unfold stepUpd
    dsimp only
    split_ifs <;> rfl
  have e1b : (fun (rep : List (String × List String)) (s : String) =>
      if (ls2.lookup s).isSome then
        (if lec2.contains s then rep else updAppend rep s msgNoAcceptedBuilt)
      else updAppend rep s msgNoAcceptedRecent)
      = stepUpd (fun s => s) (fun s =>
          if (ls2.lookup s).isSome then
            (if lec2.contains s then none else some msgNoAcceptedBuilt)
          else some msgNoAcceptedRecent) := by
    funext rep s
    unfold stepUpd
    dsimp only
    split_ifs <;> rfl
  have e2 : (fun (rep : List (String × List String)) (sa : String × Int) =>
      if (ls.lookup sa.1).isSome then rep
      else updAppend rep sa.1 (msgAcceptedStale sa.2 aL))
      = stepUpd Prod.fst (fun sa =>
          if (ls.lookup sa.1).isSome then none else some (msgAcceptedStale sa.2 aL)) := by
    funext rep sa
    unfold stepUpd
    dsimp only
    split_ifs <;> rfl
  have e2b : (fun (rep : List (String × List String)) (sa : String × Int) =>
      if (ls2.lookup sa.1).isSome then rep
      else updAppend rep sa.1 (msgAcceptedStale sa.2 aL))
      = stepUpd Prod.fst (fun sa =>
          if (ls2.lookup sa.1).isSome then none else some (msgAcceptedStale sa.2 aL)) := by
    funext rep sa
    unfold stepUpd
    dsimp only
    split_ifs <;> rfl
  have e3 : (fun (rep : List (String × List String)) (s : String) =>
      updAppend rep s msgNoBuilt)
      = stepUpd (fun s => s) (fun _ => some msgNoBuilt) := rfl
  have e4 : (fun (rep : List (String × List String)) (sa : String × Int) =>
      updAppend rep sa.1 (msgVeryStale sa.2))
      = stepUpd Prod.fst (fun sa => some (msgVeryStale sa.2)) := rfl
  rw [e1, e1b, e2, e2b, e3, e4]
  apply foldl_stepUpd_perm Prod.fst _ _ (fun sa => rfl) hvs hndvs
  apply foldl_stepUpd_perm (fun s => s) _ _ (fun s => rfl) hle
    (by simpa using hndle)
  apply foldl_stepUpd_perm Prod.fst _ _ (fun sa => by rw [hls sa.1]) has hndas
  apply foldl_stepUpd_perm (fun s => s) _ _
    (fun s => by rw [hls s, hcont s]) hae (by simpa using hndae)
  exact h0

/-- The findings map of `generateReport` depends on its three fetched maps
only through their Go-map content, not their iteration order. -/
theorem mapEquiv_reportFindings
    (acc acc2 all all2 g g2 : List (String × List String))
    (hndacc : NodupKeys acc) (hpacc : acc.Perm acc2)
    (hndall : NodupKeys all) (hpall : all.Perm all2)
    (hndg : NodupKeys g) (hpg : g.Perm g2)
    (aL bL uL om nm : Int) (incl : Bool) (now : Int) :
    MapEquiv (reportFindings acc all g aL bL uL om nm incl now)
             (reportFindings acc2 all2 g2 aL bL uL om nm incl now) := by
  unfold reportFindings
  rw [getEmptyAndStaleStreams_eq acc aL om nm now,
    getEmptyAndStaleStreams_eq all aL om nm now,
    getEmptyAndStaleStreams_eq all bL om nm now,
    getEmptyAndStaleStreams_eq acc2 aL om nm now,
    getEmptyAndStaleStreams_eq all2 aL om nm now,
    getEmptyAndStaleStreams_eq all2 bL om nm now]
  dsimp only
  exact mapEquiv_foldChain _ _
    (mapEquiv_checkUpgrades hndg hpg hndall hpall uL om nm incl now)
    _ _ (hpacc.filterMap _) ((emptyList_sublist_keys om nm acc).nodup hndacc)
    _ _ (hpacc.filterMap _)
    (nodupKeys_filterMap (fun kv r h => (staleEntry_some h).1) hndacc)
    _ _ (hpall.filterMap _) ((emptyList_sublist_keys om nm all).nodup hndall)
    _ _ (hpall.filterMap _)
    (nodupKeys_filterMap (fun kv r h => (staleEntry_some h).1) hndall)
    _ _ (fun s => lookup_perm (hpall.filterMap _)
      (nodupKeys_filterMap (fun kv r h => (staleEntry_some h).1) hndall) s)
    _ _ (fun s => contains_congr_of_perm (hpall.filterMap _) s)
    aL

/-- C9: for a fixed `now`, two runs of the report assembly over identical
stream maps and identical upgrade adjacency — identical as Go maps, i.e.
key-nodup association lists that are permutations of each other, in any
iteration order — produce byte-identical report text. -/
theorem c9_report_deterministic
    (acc acc2 all all2 g g2 : List (String × List String))
    (aL bL uL om nm : Int) (incl : Bool) (now : Int)
    (hndacc : NodupKeys acc) (hndall : NodupKeys all) (hndg : NodupKeys g)
    (hpacc : acc.Perm acc2) (hpall : all.Perm all2) (hpg : g.Perm g2) :
    generateReport acc all g aL bL uL om nm incl now
      = generateReport acc2 all2 g2 aL bL uL om nm incl now := by
  have hrf := mapEquiv_reportFindings acc acc2 all all2 g g2 hndacc hpacc hndall hpall
    hndg hpg aL bL uL om nm incl now
  unfold generateReport
  dsimp only
  rw [reportOrder_eq_of_perm (keys_perm_of_mapEquiv hrf)]
  exact renderReport_congr hrf.2.2 _ om nm

/-- C9 witness: three concrete two-entry maps and their reversals produce the
same report text. -/
theorem c9_witness :
    NodupKeys [("4.9.0-0.ci", ["x"]), ("4.10.0-0.ci", [])]
    ∧ NodupKeys [("4.12.0-0.ci", []), ("4.12.0-0.nightly", ["p-0001-01-02-000000"])]
    ∧ NodupKeys [("a", ["b"]), ("4.12.0-0.ci", ["c"])]
    ∧ ([("4.9.0-0.ci", ["x"]), ("4.10.0-0.ci", [])].Perm
        [("4.10.0-0.ci", []), ("4.9.0-0.ci", ["x"])])
    ∧ generateReport [("4.9.0-0.ci", ["x"]), ("4.10.0-0.ci", [])]
        [("4.12.0-0.ci", []), ("4.12.0-0.nightly", ["p-0001-01-02-000000"])]
        [("a", ["b"]), ("4.12.0-0.ci", ["c"])] 86400 604800 86400 8 99 false 864000
      = generateReport [("4.10.0-0.ci", []), ("4.9.0-0.ci", ["x"])]
        [("4.12.0-0.nightly", ["p-0001-01-02-000000"]), ("4.12.0-0.ci", [])]
        [("4.12.0-0.ci", ["c"]), ("a", ["b"])] 86400 604800 86400 8 99 false 864000 := by
  refine ⟨by decide, by decide, by decide, by decide, ?_⟩
  exact c9_report_deterministic
    [("4.9.0-0.ci", ["x"]), ("4.10.0-0.ci", [])]
    [("4.10.0-0.ci", []), ("4.9.0-0.ci", ["x"])]
    [("4.12.0-0.ci", []), ("4.12.0-0.nightly", ["p-0001-01-02-000000"])]
    [("4.12.0-0.nightly", ["p-0001-01-02-000000"]), ("4.12.0-0.ci", [])]
    [("a", ["b"]), ("4.12.0-0.ci", ["c"])]
    [("4.12.0-0.ci", ["c"]), ("a", ["b"])]
    86400 604800 86400 8 99 false 864000
    (by decide) (by decide) (by decide) (by decide) (by decide) (by decide)

end ReleaseWatcher
